import Mathlib

/-!
Verification development for the spreadsort-based `float_sort` entry points and the
fixed-size sorting networks of a C++ sorting library (cpp-sort).

The element type of a floating-point range is modelled by the 32-bit pattern of the
IEEE-754 single-precision value, a natural number below `2 ^ 32`; machine integers are
modelled by `Nat` with explicit truncation where overflow matters.  Comparators and
right-shift functors are modelled as `Bool`-valued functions, as in the C++ templates.

Code present in the repository sources (`float_sort.h` wrappers, `sort2.h`, the 31-input
sorting network) is translated directly.  Components of this same library that the
wrappers delegate to but whose sources are not available here (the recursive engine
`detail::float_sort`, `pdqsort`, `detail/constants.h`, `swap_if.h`, the 16- and 15-input
sub-networks) are modelled from the specification's component contracts; each such
definition carries a doc comment starting with `Modelled from the spec:`.
-/

namespace CppSort

/-! ### Fallback comparison sort -/

/-- Stable ordered insertion: walk past every `y` with `comp y x = true` and place `x`
in front of the first element that is not strictly below it. -/
def pdq_insert (comp : α → α → Bool) (x : α) : List α → List α
  | [] => [x]
  | y :: ys => if comp y x then y :: pdq_insert comp x ys else x :: y :: ys

/-- Insertion sort driven by a `Bool`-valued comparator. -/
def insertionSortB (comp : α → α → Bool) : List α → List α
  | [] => []
  | x :: xs => pdq_insert comp x (insertionSortB comp xs)

/-- Modelled from the spec: the Fallback Comparison Sort (`pdqsort`, whose source
`../pdqsort.h` is not among the provided files).  Per the collaborator contract
(spec section 6) it takes a range, a comparator and a projection and produces a range
ordered so that no element compares less than any preceding element; the model is a
stable insertion sort, which satisfies that contract. -/
def pdqsort (comp : β → β → Bool) (proj : α → β) (xs : List α) : List α :=
  insertionSortB (fun a b => comp (proj a) (proj b)) xs

/-- The ordering guarantee of a comparison sort: no adjacent element compares strictly
below its predecessor. -/
def SortedB (comp : α → α → Bool) (l : List α) : Prop :=
  List.Chain' (fun a b => comp b a = false) l

/-- Executable check of `SortedB`. -/
def isSortedB (comp : α → α → Bool) : List α → Bool
  | [] => true
  | [_] => true
  | a :: b :: l => !comp b a && isSortedB comp (b :: l)

theorem isSortedB_iff (comp : α → α → Bool) :
    ∀ l : List α, isSortedB comp l = true ↔ SortedB comp l
  | [] => iff_of_true rfl List.chain'_nil
  | [a] => iff_of_true rfl (List.chain'_singleton a)
  | a :: b :: l => by
    show (!comp b a && isSortedB comp (b :: l)) = true ↔ _
    rw [Bool.and_eq_true, Bool.not_eq_true']
    constructor
    · rintro ⟨h1, h2⟩
      exact List.Chain'.cons h1 ((isSortedB_iff comp (b :: l)).1 h2)
    · intro h
      exact ⟨(List.chain'_cons.1 h).1,
        (isSortedB_iff comp (b :: l)).2 (List.chain'_cons.1 h).2⟩

instance (comp : α → α → Bool) (l : List α) : Decidable (SortedB comp l) :=
  decidable_of_iff _ (isSortedB_iff comp l)

theorem pdq_insert_perm (comp : α → α → Bool) (x : α) :
    ∀ l : List α, (pdq_insert comp x l).Perm (x :: l)
  | [] => List.Perm.refl _
  | y :: ys => by
    unfold pdq_insert
    split
    · exact ((pdq_insert_perm comp x ys).cons y).trans (List.Perm.swap x y ys)
    · exact List.Perm.refl _

theorem insertionSortB_perm (comp : α → α → Bool) :
    ∀ l : List α, (insertionSortB comp l).Perm l
  | [] => List.Perm.refl _
  | x :: xs =>
    (pdq_insert_perm comp x (insertionSortB comp xs)).trans
      ((insertionSortB_perm comp xs).cons x)

theorem mem_insertionSortB {comp : α → α → Bool} {l : List α} {a : α} :
    a ∈ insertionSortB comp l ↔ a ∈ l :=
  (insertionSortB_perm comp l).mem_iff

/-- The head of `pdq_insert comp x l` is either `x` or the head of `l`. -/
theorem pdq_insert_head (comp : α → α → Bool) (x : α) (l : List α) :
    (pdq_insert comp x l).head? = some x ∨ (pdq_insert comp x l).head? = l.head? := by
  cases l with
  | nil => exact Or.inl rfl
  | cons y ys =>
    unfold pdq_insert
    split
    · exact Or.inr rfl
    · exact Or.inl rfl

theorem pdq_insert_sorted {comp : α → α → Bool} {x : α} {l : List α}
    (hasym : ∀ a ∈ x :: l, ∀ b ∈ x :: l, comp a b = true → comp b a = false)
    (hs : SortedB comp l) : SortedB comp (pdq_insert comp x l) := by
  induction l with
  | nil => exact List.chain'_singleton x
  | cons y ys ih =>
    unfold pdq_insert
    split
    · rename_i hyx
      have hys : SortedB comp ys := hs.tail
      have ihs : SortedB comp (pdq_insert comp x ys) := by
        refine ih ?_ hys
        intro a ha b hb
        have ha' : a ∈ x :: y :: ys := by
          rcases List.mem_cons.1 ha with h | h
          · exact h ▸ List.mem_cons_self _ _
          · exact List.mem_cons_of_mem _ (List.mem_cons_of_mem _ h)
        have hb' : b ∈ x :: y :: ys := by
          rcases List.mem_cons.1 hb with h | h
          · exact h ▸ List.mem_cons_self _ _
          · exact List.mem_cons_of_mem _ (List.mem_cons_of_mem _ h)
        exact hasym a ha' b hb'
      refine List.Chain'.cons' ihs ?_
      intro z hz
      rcases pdq_insert_head comp x ys with hh | hh
      · rw [hh] at hz
        cases hz
        exact hasym y (List.mem_cons_of_mem _ (List.mem_cons_self _ _))
          x (List.mem_cons_self _ _) hyx
      · rw [hh] at hz
        exact (List.chain'_cons'.1 hs).1 z hz
    · rename_i hyx
      refine List.Chain'.cons ?_ hs
      exact Bool.not_eq_true _ ▸ (by simpa using hyx)

theorem insertionSortB_sorted {comp : α → α → Bool} {l : List α}
    (hasym : ∀ a ∈ l, ∀ b ∈ l, comp a b = true → comp b a = false) :
    SortedB comp (insertionSortB comp l) := by
  induction l with
  | nil => exact List.chain'_nil
  | cons x xs ih =>
    have htail : SortedB comp (insertionSortB comp xs) := by
      refine ih ?_
      intro a ha b hb
      exact hasym a (List.mem_cons_of_mem _ ha) b (List.mem_cons_of_mem _ hb)
    refine pdq_insert_sorted ?_ htail
    intro a ha b hb
    have ha' : a ∈ x :: xs := by
      rcases List.mem_cons.1 ha with h | h
      · exact h ▸ List.mem_cons_self _ _
      · exact List.mem_cons_of_mem _ (mem_insertionSortB.1 h)
    have hb' : b ∈ x :: xs := by
      rcases List.mem_cons.1 hb with h | h
      · exact h ▸ List.mem_cons_self _ _
      · exact List.mem_cons_of_mem _ (mem_insertionSortB.1 h)
    exact hasym a ha' b hb'

/-- A range that is already in sorted order is returned unchanged (the model of the
fallback sort is stable). -/
theorem insertionSortB_eq_self {comp : α → α → Bool} {l : List α}
    (hs : SortedB comp l) : insertionSortB comp l = l := by
  induction l with
  | nil => rfl
  | cons x xs ih =>
    have hxs : insertionSortB comp xs = xs := ih hs.tail
    show pdq_insert comp x (insertionSortB comp xs) = x :: xs
    rw [hxs]
    cases xs with
    | nil => rfl
    | cons y ys =>
      unfold pdq_insert
      have : comp y x = false := (List.chain'_cons.1 hs).1
      simp [this]

theorem length_insertionSortB (comp : α → α → Bool) (l : List α) :
    (insertionSortB comp l).length = l.length :=
  (insertionSortB_perm comp l).length_eq

/-! ### Buckets

The Bucket Distribution Engine partitions a sub-range into contiguous buckets ordered by
ascending right-shift value (spec section 4.4).  The functional model enumerates the
distinct right-shift values present in the sub-range in ascending order and concatenates
the corresponding stable filters; this is exactly the count/prefix-sum/place partition of
the spec (a stable grouping of the range by ascending bucket value). -/

/-- The distinct values of `l` in strictly ascending order. -/
def sortedValues (l : List Nat) : List Nat :=
  insertionSortB (fun a b => decide (a < b)) l.dedup

theorem mem_sortedValues {l : List Nat} {v : Nat} : v ∈ sortedValues l ↔ v ∈ l := by
  unfold sortedValues
  rw [mem_insertionSortB, List.mem_dedup]

theorem sortedValues_sorted (l : List Nat) :
    List.Pairwise (· < ·) (sortedValues l) := by
  have hnd : (sortedValues l).Nodup := by
    unfold sortedValues
    exact ((insertionSortB_perm _ l.dedup).nodup_iff).2 l.nodup_dedup
  have hle : List.Pairwise (fun a b : Nat => a ≤ b) (sortedValues l) := by
    have hch : SortedB (fun a b : Nat => decide (a < b)) (sortedValues l) := by
      unfold sortedValues
      refine insertionSortB_sorted ?_
      intro a _ b _ hab
      simpa using Nat.lt_asymm (by simpa using hab)
    have hch' : List.Chain' (fun a b : Nat => a ≤ b) (sortedValues l) := by
      refine List.Chain'.imp ?_ hch
      intro a b h
      have : ¬ (b < a) := by simpa using h
      omega
    exact List.chain'_iff_pairwise.1 hch'
  exact (hle.and hnd).imp (fun h => lt_of_le_of_ne h.1 h.2)

/-- A strictly ascending list of naturals is determined by its set of members. -/
theorem strictSorted_eq {l₁ l₂ : List Nat}
    (h₁ : List.Pairwise (· < ·) l₁) (h₂ : List.Pairwise (· < ·) l₂)
    (hm : ∀ v, v ∈ l₁ ↔ v ∈ l₂) : l₁ = l₂ := by
  haveI : IsAntisymm Nat (· < ·) := ⟨fun a b h h' => absurd h (Nat.lt_asymm h')⟩
  have hd₁ : l₁.Nodup := h₁.imp (fun h => Nat.ne_of_lt h)
  have hd₂ : l₂.Nodup := h₂.imp (fun h => Nat.ne_of_lt h)
  exact List.eq_of_perm_of_sorted ((List.perm_ext_iff_of_nodup hd₁ hd₂).2 hm) h₁ h₂

theorem sortedValues_congr {l₁ l₂ : List Nat} (hm : ∀ v, v ∈ l₁ ↔ v ∈ l₂) :
    sortedValues l₁ = sortedValues l₂ :=
  strictSorted_eq (sortedValues_sorted l₁) (sortedValues_sorted l₂)
    (fun v => by rw [mem_sortedValues, mem_sortedValues]; exact hm v)

/-- Partition of `xs` into its contiguous groups of equal `f`-value, groups ordered by
ascending value. -/
def bucketsBy (f : α → Nat) (xs : List α) : List (List α) :=
  (sortedValues (xs.map f)).map (fun v => xs.filter (fun x => f x == v))

theorem bucketsBy_nil (f : α → Nat) : bucketsBy f ([] : List α) = [] := rfl

theorem mem_of_mem_bucketsBy {f : α → Nat} {xs : List α} {b : List α} {x : α}
    (hb : b ∈ bucketsBy f xs) (hx : x ∈ b) : x ∈ xs := by
  rcases List.mem_map.1 hb with ⟨v, _, rfl⟩
  exact (List.mem_filter.1 hx).1

theorem fval_of_mem_bucketsBy {f : α → Nat} {xs : List α} {b : List α}
    (hb : b ∈ bucketsBy f xs) : ∀ x ∈ b, ∀ y ∈ b, f x = f y := by
  rcases List.mem_map.1 hb with ⟨v, _, rfl⟩
  intro x hx y hy
  have hxv : f x = v := by simpa using (List.mem_filter.1 hx).2
  have hyv : f y = v := by simpa using (List.mem_filter.1 hy).2
  rw [hxv, hyv]

theorem bucketsBy_pairwise (f : α → Nat) (xs : List α) :
    List.Pairwise (fun b c => ∀ a ∈ b, ∀ d ∈ c, f a < f d) (bucketsBy f xs) := by
  unfold bucketsBy
  rw [List.pairwise_map]
  refine (sortedValues_sorted (xs.map f)).imp ?_
  intro v w hvw a ha d hd
  have hav : f a = v := by simpa using (List.mem_filter.1 ha).2
  have hdw : f d = w := by simpa using (List.mem_filter.1 hd).2
  rw [hav, hdw]; exact hvw

/-- The head bucket's value list: removing the minimal value leaves the tail. -/
theorem sortedValues_filter_ne {f : α → Nat} {xs : List α} {v₀ : Nat} {vtail : List Nat}
    (h : sortedValues (xs.map f) = v₀ :: vtail) :
    sortedValues ((xs.filter (fun x => !(f x == v₀))).map f) = vtail := by
  have hsorted : List.Pairwise (· < ·) (v₀ :: vtail) := h ▸ sortedValues_sorted _
  have htail : List.Pairwise (· < ·) vtail := hsorted.tail
  have hne : v₀ ∉ vtail := fun hmem =>
    absurd ((List.pairwise_cons.1 hsorted).1 v₀ hmem) (Nat.lt_irrefl v₀)
  refine strictSorted_eq (sortedValues_sorted _) htail ?_
  intro v
  rw [mem_sortedValues]
  constructor
  · rintro hv
    rcases List.mem_map.1 hv with ⟨x, hx, rfl⟩
    rcases List.mem_filter.1 hx with ⟨hxxs, hxne⟩
    have hvmem : f x ∈ v₀ :: vtail := by
      rw [← h, mem_sortedValues]
      exact List.mem_map.2 ⟨x, hxxs, rfl⟩
    rcases List.mem_cons.1 hvmem with h0 | h0
    · exact absurd (by simpa using h0) (by simpa using hxne)
    · exact h0
  · intro hv
    have hvne : v ≠ v₀ := fun h0 => hne (h0 ▸ hv)
    have hvmem : v ∈ sortedValues (xs.map f) := h ▸ List.mem_cons_of_mem _ hv
    rcases List.mem_map.1 (mem_sortedValues.1 hvmem) with ⟨x, hx, rfl⟩
    refine List.mem_map.2 ⟨x, List.mem_filter.2 ⟨hx, ?_⟩, rfl⟩
    simpa using hvne

/-- For a value other than the minimum, filtering commutes with removing the minimal
group. -/
theorem filter_eq_filter_of_ne {f : α → Nat} (xs : List α) {v v₀ : Nat} (hne : v ≠ v₀) :
    (xs.filter (fun x => !(f x == v₀))).filter (fun x => f x == v) =
      xs.filter (fun x => f x == v) := by
  induction xs with
  | nil => rfl
  | cons x rest ih =>
    by_cases hx : f x = v₀
    · have h1 : (!(f x == v₀)) = false := by simp [hx]
      have h2 : (f x == v) = false := by
        simp only [beq_eq_false_iff_ne, ne_eq]
        exact fun h0 => hne (by rw [← h0, hx])
      simp only [List.filter_cons, h1, h2]
      simpa [h2] using ih
    · have h1 : (!(f x == v₀)) = true := by simpa using hx
      simp only [List.filter_cons, h1]
      by_cases h2 : f x = v
      · simp only [h2, beq_self_eq_true, if_true, List.filter_cons]
        simpa [h2] using congrArg (List.cons x) ih
      · have h3 : (f x == v) = false := by simpa using h2
        simpa [h3] using ih

theorem length_filter_lt_of_mem {p : α → Bool} {xs : List α} {x : α}
    (hx : x ∈ xs) (hpx : p x = false) : (xs.filter p).length < xs.length := by
  induction xs with
  | nil => cases hx
  | cons y rest ih =>
    rcases List.mem_cons.1 hx with h | h
    · subst h
      rw [List.filter_cons, hpx]
      simpa using Nat.lt_succ_of_le (List.length_filter_le p rest)
    · rw [List.filter_cons]
      by_cases hpy : p y = true
      · simpa [hpy] using Nat.succ_lt_succ (ih h)
      · have hpy' : p y = false := by simpa using hpy
        simpa [hpy'] using Nat.lt_succ_of_lt (ih h)

theorem sortedValues_map_nil {f : α → Nat} {xs : List α}
    (h : sortedValues (xs.map f) = []) : xs = [] := by
  cases xs with
  | nil => rfl
  | cons x rest =>
    exfalso
    have hm : f x ∈ sortedValues ((x :: rest).map f) :=
      mem_sortedValues.2 (List.mem_map.2 ⟨x, List.mem_cons_self _ _, rfl⟩)
    rw [h] at hm
    exact absurd hm (List.not_mem_nil _)

/-- First decomposition step shared by the permutation and identity lemmas: the flattened
bucket partition is the minimal-value group followed by the partition of the rest. -/
theorem bucketsBy_flatten_cons {f : α → Nat} {xs : List α} {v₀ : Nat} {vtail : List Nat}
    (hsvs : sortedValues (xs.map f) = v₀ :: vtail) :
    (bucketsBy f xs).flatten =
      xs.filter (fun x => f x == v₀) ++
        (bucketsBy f (xs.filter (fun x => !(f x == v₀)))).flatten := by
  have hsorted : List.Pairwise (· < ·) (v₀ :: vtail) := hsvs ▸ sortedValues_sorted _
  have hb' : bucketsBy f (xs.filter (fun x => !(f x == v₀))) =
      vtail.map (fun v => (xs.filter (fun x => !(f x == v₀))).filter
        (fun x => f x == v)) := by
    unfold bucketsBy
    rw [sortedValues_filter_ne hsvs]
  have hfilters : vtail.map (fun v => (xs.filter (fun x => !(f x == v₀))).filter
      (fun x => f x == v)) = vtail.map (fun v => xs.filter (fun x => f x == v)) := by
    refine List.map_congr_left ?_
    intro v hv
    have hvne : v ≠ v₀ := fun h0 =>
      absurd ((List.pairwise_cons.1 hsorted).1 v₀ (h0 ▸ hv)) (Nat.lt_irrefl v₀)
    exact filter_eq_filter_of_ne xs hvne
  have h0 : bucketsBy f xs =
      (v₀ :: vtail).map (fun v => xs.filter (fun x => f x == v)) := by
    unfold bucketsBy
    rw [hsvs]
  rw [h0, List.map_cons, List.flatten_cons, hb', hfilters]

theorem exists_min_group_elem {f : α → Nat} {xs : List α} {v₀ : Nat} {vtail : List Nat}
    (hsvs : sortedValues (xs.map f) = v₀ :: vtail) :
    ∃ x ∈ xs, f x = v₀ := by
  have hv : v₀ ∈ sortedValues (xs.map f) := hsvs ▸ List.mem_cons_self _ _
  rcases List.mem_map.1 (mem_sortedValues.1 hv) with ⟨x, hx, hfx⟩
  exact ⟨x, hx, hfx⟩

theorem bucketsBy_flatten_perm_aux (f : α → Nat) :
    ∀ n : Nat, ∀ xs : List α, xs.length ≤ n → ((bucketsBy f xs).flatten).Perm xs := by
  intro n
  induction n with
  | zero =>
    intro xs h
    have hnil : xs = [] := List.length_eq_zero.1 (Nat.le_zero.1 h)
    subst hnil
    exact List.Perm.refl _
  | succ n ih =>
    intro xs hlen
    cases hsvs : sortedValues (xs.map f) with
    | nil =>
      have hnil : xs = [] := sortedValues_map_nil hsvs
      subst hnil
      exact List.Perm.refl _
    | cons v₀ vtail =>
      rcases exists_min_group_elem hsvs with ⟨x, hx, hfx⟩
      have hlt : (xs.filter (fun x => !(f x == v₀))).length < xs.length :=
        length_filter_lt_of_mem hx (by simp [hfx])
      have hrec := ih (xs.filter (fun x => !(f x == v₀)))
        (Nat.le_of_lt_succ (Nat.lt_of_lt_of_le hlt hlen))
      rw [bucketsBy_flatten_cons hsvs]
      exact (hrec.append_left _).trans
        (List.filter_append_perm (fun x => f x == v₀) xs)

/-- The flattened bucket partition is a permutation of the range. -/
theorem bucketsBy_flatten_perm (f : α → Nat) (xs : List α) :
    ((bucketsBy f xs).flatten).Perm xs :=
  bucketsBy_flatten_perm_aux f xs.length xs (Nat.le_refl _)

theorem filter_eq_append_of_sorted {f : α → Nat} {v₀ : Nat} :
    ∀ xs : List α, List.Pairwise (fun a b => f a ≤ f b) xs →
      (∀ x ∈ xs, v₀ ≤ f x) →
      xs.filter (fun x => f x == v₀) ++ xs.filter (fun x => !(f x == v₀)) = xs := by
  intro xs
  induction xs with
  | nil => intro _ _; rfl
  | cons x rest ih =>
    intro hp hmin
    by_cases hx : f x = v₀
    · have h1 : (f x == v₀) = true := by simpa using hx
      simp only [List.filter_cons, h1, Bool.not_true, Bool.false_eq_true, if_false,
        if_true, List.cons_append]
      exact congrArg (List.cons x)
        (ih hp.tail (fun y hy => hmin y (List.mem_cons_of_mem _ hy)))
    · have hlt : v₀ < f x :=
        Nat.lt_of_le_of_ne (hmin x (List.mem_cons_self _ _)) (fun h0 => hx h0.symm)
      have hner : ∀ y ∈ x :: rest, (f y == v₀) = false := by
        intro y hy
        rcases List.mem_cons.1 hy with h | h
        · subst h
          simpa using fun h0 => absurd (h0 ▸ hlt) (Nat.lt_irrefl _)
        · have : f x ≤ f y := (List.pairwise_cons.1 hp).1 y h
          simpa using fun h0 => absurd (h0 ▸ Nat.lt_of_lt_of_le hlt this)
            (Nat.lt_irrefl _)
      have hempty : (x :: rest).filter (fun x => f x == v₀) = [] := by
        rw [List.filter_eq_nil_iff]
        intro y hy
        simp [hner y hy]
      have hfull : (x :: rest).filter (fun x => !(f x == v₀)) = x :: rest := by
        rw [List.filter_eq_self]
        intro y hy
        simp [hner y hy]
      rw [hempty, hfull, List.nil_append]

theorem bucketsBy_flatten_eq_self_aux (f : α → Nat) :
    ∀ n : Nat, ∀ xs : List α, xs.length ≤ n →
      List.Pairwise (fun a b => f a ≤ f b) xs → (bucketsBy f xs).flatten = xs := by
  intro n
  induction n with
  | zero =>
    intro xs h _
    have hnil : xs = [] := List.length_eq_zero.1 (Nat.le_zero.1 h)
    subst hnil
    rfl
  | succ n ih =>
    intro xs hlen hp
    cases hsvs : sortedValues (xs.map f) with
    | nil =>
      have hnil : xs = [] := sortedValues_map_nil hsvs
      subst hnil
      rfl
    | cons v₀ vtail =>
      rcases exists_min_group_elem hsvs with ⟨x, hx, hfx⟩
      have hlt : (xs.filter (fun x => !(f x == v₀))).length < xs.length :=
        length_filter_lt_of_mem hx (by simp [hfx])
      have hrec := ih (xs.filter (fun x => !(f x == v₀)))
        (Nat.le_of_lt_succ (Nat.lt_of_lt_of_le hlt hlen))
        (hp.filter _)
      have hmin : ∀ y ∈ xs, v₀ ≤ f y := by
        intro y hy
        have hvm : f y ∈ sortedValues (xs.map f) :=
          mem_sortedValues.2 (List.mem_map.2 ⟨y, hy, rfl⟩)
        rw [hsvs] at hvm
        rcases List.mem_cons.1 hvm with h | h
        · exact Nat.le_of_eq h.symm
        · exact Nat.le_of_lt ((List.pairwise_cons.1
            (hsvs ▸ sortedValues_sorted (xs.map f))).1 _ h)
      rw [bucketsBy_flatten_cons hsvs, hrec]
      exact filter_eq_append_of_sorted xs hp hmin

/-- A range already sorted by `f`-value is returned unchanged by the bucket partition. -/
theorem bucketsBy_flatten_eq_self {f : α → Nat} {xs : List α}
    (hp : List.Pairwise (fun a b => f a ≤ f b) xs) : (bucketsBy f xs).flatten = xs :=
  bucketsBy_flatten_eq_self_aux f xs.length xs (Nat.le_refl _) hp

theorem flatten_perm_congr (g : List α → List α) :
    ∀ blocks : List (List α), (∀ b ∈ blocks, (g b).Perm b) →
      ((blocks.map g).flatten).Perm blocks.flatten := by
  intro blocks
  induction blocks with
  | nil => intro _; exact List.Perm.refl _
  | cons b rest ih =>
    intro h
    rw [List.map_cons, List.flatten_cons, List.flatten_cons]
    exact (h b (List.mem_cons_self _ _)).append
      (ih (fun c hc => h c (List.mem_cons_of_mem _ hc)))

theorem sortedB_of_length_le_one {comp : α → α → Bool} {b : List α}
    (h : b.length ≤ 1) : SortedB comp b := by
  cases b with
  | nil => exact List.chain'_nil
  | cons x rest =>
    cases rest with
    | nil => exact List.chain'_singleton x
    | cons y t => simp at h

/-- Concatenating sorted blocks whose elements are pairwise ordered across blocks yields
a sorted list. -/
theorem sortedB_flatten {comp : α → α → Bool} :
    ∀ {blocks : List (List α)}, (∀ b ∈ blocks, SortedB comp b) →
      List.Pairwise (fun b c => ∀ a ∈ b, ∀ d ∈ c, comp d a = false) blocks →
      SortedB comp blocks.flatten := by
  intro blocks
  induction blocks with
  | nil => intro _ _; exact List.chain'_nil
  | cons b rest ih =>
    intro h1 h2
    rw [List.flatten_cons]
    refine List.Chain'.append (h1 b (List.mem_cons_self _ _))
      (ih (fun c hc => h1 c (List.mem_cons_of_mem _ hc)) h2.tail) ?_
    intro x hx y hy
    have hxb : x ∈ b := by
      rcases List.mem_getLast?_eq_getLast hx with ⟨hne, hxl⟩
      exact hxl ▸ List.getLast_mem hne
    have hyf : y ∈ rest.flatten := by
      rw [List.eq_cons_of_mem_head? hy]
      exact List.mem_cons_self _ _
    rcases List.mem_flatten.1 hyf with ⟨c, hc, hyc⟩
    exact (List.pairwise_cons.1 h2).1 c hc x hxb y hyc

/-! ### The recursive spreadsort engine

The wrappers in `float_sort.h` delegate the non-small case to `detail::float_sort`
(declared in `detail/float_sort.h`, which is not among the provided files), so the
engine below is modelled from the spec, sections 4.3 to 4.5. -/

/-- The tuning constants of the engine (spec section 4.3: "The thresholds are tunable
constants").  `minSortSize` is the minimum element count for distribution to be
worthwhile, `bitsPerPass` the number of key bits consumed per distribution pass. -/
structure SpreadConfig where
  minSortSize : Nat
  bitsPerPass : Nat

/-- Modelled from the spec: the tuning constants of `detail/constants.h` (not among the
provided files).  The values mirror the original library (`min_sort_size = 1000`, one
byte of key bits per pass). -/
def defaultConfig : SpreadConfig := ⟨1000, 8⟩

/-- The bucket partition at bit offset `off`: contiguous buckets ordered by ascending
right-shift value (spec section 4.4). -/
def bucketize (rshift : α → Nat → Nat) (off : Nat) (xs : List α) : List (List α) :=
  bucketsBy (fun x => rshift x off) xs

/-- Modelled from the spec: the recursive Bucket Distribution Engine with the Size/Range
Heuristic (spec sections 4.3 and 4.4).  At each level the sub-range is partitioned into
contiguous buckets by ascending right-shift value at the current bit offset; a bucket of
at most one element, or one whose keys are fully discriminated (offset 0), terminates; a
bucket below the minimum sort size is delegated to the Fallback Comparison Sort; any
other bucket is recursed into at the next lower bit offset.  `fuel` is a structural
recursion bound; the driver passes enough fuel that it is never exhausted (the depth
bound proved below), and the exhaustion branch falls back to the comparison sort, which
the heuristic is always allowed to do. -/
def spread_rec (cfg : SpreadConfig) (rshift : α → Nat → Nat) (comp : α → α → Bool) :
    Nat → Nat → List α → List α
  | 0, _, xs => pdqsort comp id xs
  | fuel + 1, off, xs =>
    ((bucketize rshift off xs).map (fun b =>
      if b.length ≤ 1 then b
      else if off = 0 then b
      else if b.length < cfg.minSortSize then pdqsort comp id b
      else spread_rec cfg rshift comp fuel (off - cfg.bitsPerPass) b)).flatten

/-- Structurally recursive binary logarithm (defined with explicit fuel so that it
evaluates by kernel reduction); agrees with `Nat.log2`. -/
def log2fuel : Nat → Nat → Nat
  | 0, _ => 0
  | fuel + 1, n => if 2 ≤ n then log2fuel fuel (n / 2) + 1 else 0

/-- Binary logarithm used by the driver. -/
def nat_log2 (n : Nat) : Nat := log2fuel n n

theorem log2fuel_eq_log2 : ∀ (fuel n : Nat), n ≤ fuel → log2fuel fuel n = Nat.log2 n := by
  intro fuel
  induction fuel with
  | zero =>
    intro n hn
    have h0 : n = 0 := Nat.le_zero.1 hn
    subst h0
    show (0:Nat) = Nat.log2 0
    rw [Nat.log2]
    norm_num
  | succ fuel ih =>
    intro n hn
    by_cases h2 : 2 ≤ n
    · have hdiv : n / 2 ≤ fuel := by omega
      show (if 2 ≤ n then log2fuel fuel (n / 2) + 1 else 0) = Nat.log2 n
      conv_rhs => rw [Nat.log2]
      rw [if_pos h2, if_pos h2, ih _ hdiv]
    · show (if 2 ≤ n then log2fuel fuel (n / 2) + 1 else 0) = Nat.log2 n
      conv_rhs => rw [Nat.log2]
      rw [if_neg h2, if_neg h2]

theorem nat_log2_eq (n : Nat) : nat_log2 n = Nat.log2 n :=
  log2fuel_eq_log2 n n (Nat.le_refl _)

/-- Modelled from the spec: the Top-Level Driver part of `detail::float_sort` (spec
section 4.5).  It computes the key extremes of the range, seeded by the caller-supplied
initial right-shift value of the first element; a range whose key spread is zero is
returned unchanged (all keys equal, spec section 4.4 edge case); otherwise the engine
distributes starting from the most significant relevant bits. -/
def spread_sort (cfg : SpreadConfig) (rshift : α → Nat → Nat) (comp : α → α → Bool)
    (seed : Nat) (xs : List α) : List α :=
  let hi := xs.foldl (fun acc x => max acc (rshift x 0)) seed
  let lo := xs.foldl (fun acc x => min acc (rshift x 0)) seed
  if hi = lo then xs
  else
    let off0 := nat_log2 (hi - lo) + 1 - cfg.bitsPerPass
    spread_rec cfg rshift comp (off0 / cfg.bitsPerPass + 2) off0 xs

theorem pdqsort_id (comp : α → α → Bool) (xs : List α) :
    pdqsort comp id xs = insertionSortB comp xs := rfl

theorem pdqsort_perm (comp : β → β → Bool) (proj : α → β) (xs : List α) :
    (pdqsort comp proj xs).Perm xs :=
  insertionSortB_perm _ xs

/-- Each recursion level of the engine permutes its sub-range. -/
theorem spread_rec_perm (cfg : SpreadConfig) (rshift : α → Nat → Nat)
    (comp : α → α → Bool) :
    ∀ (fuel off : Nat) (xs : List α), (spread_rec cfg rshift comp fuel off xs).Perm xs := by
  intro fuel
  induction fuel with
  | zero => intro off xs; exact pdqsort_perm comp id xs
  | succ fuel ih =>
    intro off xs
    show (((bucketize rshift off xs).map _).flatten).Perm xs
    refine List.Perm.trans ?_ (bucketsBy_flatten_perm (fun x => rshift x off) xs)
    refine flatten_perm_congr _ (bucketize rshift off xs) ?_
    intro b _
    by_cases h1 : b.length ≤ 1
    · simp only [h1, if_true]
      exact List.Perm.refl b
    · by_cases h2 : off = 0
      · simp only [h1, h2, if_false, if_true]
        exact List.Perm.refl b
      · by_cases h3 : b.length < cfg.minSortSize
        · simp only [h1, h2, h3, if_false, if_true]
          exact pdqsort_perm comp id b
        · simp only [h1, h2, h3, if_false]
          exact ih (off - cfg.bitsPerPass) b

/-- The driver permutes the range. -/
theorem spread_sort_perm (cfg : SpreadConfig) (rshift : α → Nat → Nat)
    (comp : α → α → Bool) (seed : Nat) (xs : List α) :
    (spread_sort cfg rshift comp seed xs).Perm xs := by
  unfold spread_sort
  dsimp only
  split
  · exact List.Perm.refl _
  · exact spread_rec_perm cfg rshift comp _ _ xs

theorem shiftRight_le_of_lt {a b : Nat} (k : Nat) (h : a < b) : a >>> k ≤ b >>> k := by
  rw [Nat.shiftRight_eq_div_pow, Nat.shiftRight_eq_div_pow]
  exact Nat.div_le_div_right (Nat.le_of_lt h)

/-- A comparator that is monotone into the keys is asymmetric on the elements at hand. -/
theorem asym_of_mono {comp : α → α → Bool} (key : α → Nat) {l : List α}
    (hm : ∀ x ∈ l, ∀ y ∈ l, comp x y = true → key x < key y) :
    ∀ a ∈ l, ∀ b ∈ l, comp a b = true → comp b a = false := by
  intro a ha b hb hab
  cases hba : comp b a
  · rfl
  · exact absurd (Nat.lt_trans (hm a ha b hb hab) (hm b hb a ha hba))
      (Nat.lt_irrefl _)

/-- The engine's output has no adjacent inversion, provided the comparator never orders
an element with a larger-or-equal key below one with a smaller key (spec section 4.2
consistency contract) and the right-shift functor is the key composed with a logical
right shift. -/
theorem spread_rec_sorted (cfg : SpreadConfig) (rshift : α → Nat → Nat)
    (comp : α → α → Bool) :
    ∀ (fuel off : Nat) (xs : List α),
      (∀ x ∈ xs, ∀ y ∈ xs, comp x y = true → rshift x 0 < rshift y 0) →
      (∀ x ∈ xs, ∀ k : Nat, rshift x k = rshift x 0 >>> k) →
      SortedB comp (spread_rec cfg rshift comp fuel off xs) := by
  intro fuel
  induction fuel with
  | zero =>
    intro off xs hm _
    show SortedB comp (insertionSortB comp xs)
    exact insertionSortB_sorted (asym_of_mono (fun x => rshift x 0) hm)
  | succ fuel ih =>
    intro off xs hm hs
    show SortedB comp ((bucketize rshift off xs).map _).flatten
    have hgmem : ∀ b : List α, ∀ x : α,
        x ∈ (if b.length ≤ 1 then b
             else if off = 0 then b
             else if b.length < cfg.minSortSize then pdqsort comp id b
             else spread_rec cfg rshift comp fuel (off - cfg.bitsPerPass) b) →
        x ∈ b := by
      intro b x hx
      by_cases h1 : b.length ≤ 1
      · simpa [h1] using hx
      · by_cases h2 : off = 0
        · rw [if_neg h1, if_pos h2] at hx
          exact hx
        · by_cases h3 : b.length < cfg.minSortSize
          · rw [if_neg h1, if_neg h2, if_pos h3] at hx
            exact (pdqsort_perm comp id b).mem_iff.1 hx
          · rw [if_neg h1, if_neg h2, if_neg h3] at hx
            exact (spread_rec_perm cfg rshift comp fuel _ b).mem_iff.1 hx
    refine sortedB_flatten ?_ ?_
    · intro pb hpb
      rcases List.mem_map.1 hpb with ⟨b, hb, rfl⟩
      have hbsub : ∀ x ∈ b, x ∈ xs := fun x hx => mem_of_mem_bucketsBy hb hx
      by_cases h1 : b.length ≤ 1
      · rw [if_pos h1]
        exact sortedB_of_length_le_one h1
      · by_cases h2 : off = 0
        · rw [if_neg h1, if_pos h2]
          have hconst : ∀ x ∈ b, ∀ y ∈ b, rshift x off = rshift y off :=
            fval_of_mem_bucketsBy hb
          refine (List.pairwise_of_forall_mem_list ?_).chain'
          intro a ha d hd
          cases hda : comp d a
          · rfl
          · exfalso
            have hlt := hm d (hbsub d hd) a (hbsub a ha) hda
            have heq := hconst d hd a ha
            rw [h2] at heq
            exact absurd (heq ▸ hlt) (Nat.lt_irrefl _)
        · by_cases h3 : b.length < cfg.minSortSize
          · rw [if_neg h1, if_neg h2, if_pos h3]
            show SortedB comp (insertionSortB comp b)
            refine insertionSortB_sorted (asym_of_mono (fun x => rshift x 0) ?_)
            intro x hx y hy
            exact hm x (hbsub x hx) y (hbsub y hy)
          · rw [if_neg h1, if_neg h2, if_neg h3]
            refine ih (off - cfg.bitsPerPass) b ?_ ?_
            · intro x hx y hy
              exact hm x (hbsub x hx) y (hbsub y hy)
            · intro x hx
              exact hs x (hbsub x hx)
    · rw [List.pairwise_map]
      refine List.Pairwise.imp_of_mem ?_
        (bucketsBy_pairwise (fun x => rshift x off) xs)
      intro b c hbmem hcmem hbc a ha d hd
      have hab : a ∈ b := hgmem b a ha
      have hdc : d ∈ c := hgmem c d hd
      have haxs : a ∈ xs := mem_of_mem_bucketsBy hbmem hab
      have hdxs : d ∈ xs := mem_of_mem_bucketsBy hcmem hdc
      cases hda : comp d a
      · rfl
      · exfalso
        have hlt0 : rshift d 0 < rshift a 0 := hm d hdxs a haxs hda
        have hle : rshift d 0 >>> off ≤ rshift a 0 >>> off :=
          shiftRight_le_of_lt off hlt0
        rw [← hs d hdxs off, ← hs a haxs off] at hle
        exact absurd (Nat.lt_of_lt_of_le (hbc a hab d hdc) hle) (Nat.lt_irrefl _)

/-- On a range already sorted by key the engine is the identity. -/
theorem spread_rec_eq_self (cfg : SpreadConfig) (rshift : α → Nat → Nat)
    (comp : α → α → Bool) :
    ∀ (fuel off : Nat) (xs : List α),
      List.Pairwise (fun a b => rshift a 0 ≤ rshift b 0) xs →
      (∀ x ∈ xs, ∀ y ∈ xs, comp x y = true → rshift x 0 < rshift y 0) →
      (∀ x ∈ xs, ∀ k : Nat, rshift x k = rshift x 0 >>> k) →
      spread_rec cfg rshift comp fuel off xs = xs := by
  intro fuel
  induction fuel with
  | zero =>
    intro off xs hp hm _
    show insertionSortB comp xs = xs
    refine insertionSortB_eq_self ?_
    refine List.Pairwise.chain' ?_
    refine List.Pairwise.imp_of_mem ?_ hp
    intro a b ha hb hle
    cases hba : comp b a
    · rfl
    · exact absurd (Nat.lt_of_lt_of_le (hm b hb a ha hba) hle) (Nat.lt_irrefl _)
  | succ fuel ih =>
    intro off xs hp hm hs
    show ((bucketize rshift off xs).map _).flatten = xs
    have hpoff : List.Pairwise (fun a b => rshift a off ≤ rshift b off) xs := by
      refine List.Pairwise.imp_of_mem ?_ hp
      intro a b ha hb hle
      rw [hs a ha off, hs b hb off]
      rcases Nat.lt_or_ge (rshift a 0) (rshift b 0) with h | h
      · exact shiftRight_le_of_lt off h
      · have heq0 : rshift a 0 = rshift b 0 := Nat.le_antisymm hle h
        rw [heq0]
    have hmap : (bucketize rshift off xs).map (fun b =>
        if b.length ≤ 1 then b
        else if off = 0 then b
        else if b.length < cfg.minSortSize then pdqsort comp id b
        else spread_rec cfg rshift comp fuel (off - cfg.bitsPerPass) b) =
        bucketize rshift off xs := by
      have hid : ∀ b ∈ bucketize rshift off xs,
          (if b.length ≤ 1 then b
           else if off = 0 then b
           else if b.length < cfg.minSortSize then pdqsort comp id b
           else spread_rec cfg rshift comp fuel (off - cfg.bitsPerPass) b) = b := by
        intro b hb
        have hbsub : ∀ x ∈ b, x ∈ xs := fun x hx => mem_of_mem_bucketsBy hb hx
        have hbp : List.Pairwise (fun a c => rshift a 0 ≤ rshift c 0) b := by
          rcases List.mem_map.1 hb with ⟨v, _, rfl⟩
          exact hp.filter _
        by_cases h1 : b.length ≤ 1
        · rw [if_pos h1]
        · by_cases h2 : off = 0
          · rw [if_neg h1, if_pos h2]
          · by_cases h3 : b.length < cfg.minSortSize
            · rw [if_neg h1, if_neg h2, if_pos h3]
              show insertionSortB comp b = b
              refine insertionSortB_eq_self ?_
              refine List.Pairwise.chain' ?_
              refine List.Pairwise.imp_of_mem ?_ hbp
              intro a c ha hc hle
              cases hca : comp c a
              · rfl
              · exact absurd (Nat.lt_of_lt_of_le
                  (hm c (hbsub c hc) a (hbsub a ha) hca) hle) (Nat.lt_irrefl _)
            · rw [if_neg h1, if_neg h2, if_neg h3]
              refine ih (off - cfg.bitsPerPass) b hbp ?_ ?_
              · intro x hx y hy
                exact hm x (hbsub x hx) y (hbsub y hy)
              · intro x hx
                exact hs x (hbsub x hx)
      calc (bucketize rshift off xs).map _ = (bucketize rshift off xs).map id :=
            List.map_congr_left hid
        _ = bucketize rshift off xs := List.map_id _
    rw [hmap]
    exact bucketsBy_flatten_eq_self hpoff

theorem foldl_max_ge_seed (f : α → Nat) :
    ∀ (xs : List α) (seed : Nat), seed ≤ xs.foldl (fun acc x => max acc (f x)) seed := by
  intro xs
  induction xs with
  | nil => intro seed; exact Nat.le_refl _
  | cons x rest ih =>
    intro seed
    exact Nat.le_trans (Nat.le_max_left seed (f x)) (ih (max seed (f x)))

theorem foldl_max_ge_mem (f : α → Nat) :
    ∀ (xs : List α) (seed : Nat), ∀ x ∈ xs,
      f x ≤ xs.foldl (fun acc y => max acc (f y)) seed := by
  intro xs
  induction xs with
  | nil => intro seed x hx; cases hx
  | cons y rest ih =>
    intro seed x hx
    rcases List.mem_cons.1 hx with h | h
    · subst h
      exact Nat.le_trans (Nat.le_max_right seed (f x)) (foldl_max_ge_seed f rest _)
    · exact ih _ x h

theorem foldl_min_le_seed (f : α → Nat) :
    ∀ (xs : List α) (seed : Nat), xs.foldl (fun acc x => min acc (f x)) seed ≤ seed := by
  intro xs
  induction xs with
  | nil => intro seed; exact Nat.le_refl _
  | cons x rest ih =>
    intro seed
    exact Nat.le_trans (ih (min seed (f x))) (Nat.min_le_left seed (f x))

theorem foldl_min_le_mem (f : α → Nat) :
    ∀ (xs : List α) (seed : Nat), ∀ x ∈ xs,
      xs.foldl (fun acc y => min acc (f y)) seed ≤ f x := by
  intro xs
  induction xs with
  | nil => intro seed x hx; cases hx
  | cons y rest ih =>
    intro seed x hx
    rcases List.mem_cons.1 hx with h | h
    · subst h
      exact Nat.le_trans (foldl_min_le_seed f rest _) (Nat.min_le_right seed (f x))
    · exact ih _ x h

/-- The driver's output has no adjacent inversion under the same consistency contract. -/
theorem spread_sort_sorted (cfg : SpreadConfig) (rshift : α → Nat → Nat)
    (comp : α → α → Bool) (seed : Nat) (xs : List α)
    (hm : ∀ x ∈ xs, ∀ y ∈ xs, comp x y = true → rshift x 0 < rshift y 0)
    (hs : ∀ x ∈ xs, ∀ k : Nat, rshift x k = rshift x 0 >>> k) :
    SortedB comp (spread_sort cfg rshift comp seed xs) := by
  unfold spread_sort
  dsimp only
  split
  · rename_i heq
    refine (List.pairwise_of_forall_mem_list ?_).chain'
    intro a ha b hb
    have hkeq : rshift b 0 = rshift a 0 := by
      have h1 : rshift a 0 ≤ xs.foldl (fun acc x => max acc (rshift x 0)) seed := by
        simpa using foldl_max_ge_mem (fun x => rshift x 0) xs seed a ha
      have h2 : xs.foldl (fun acc x => min acc (rshift x 0)) seed ≤ rshift a 0 := by
        simpa using foldl_min_le_mem (fun x => rshift x 0) xs seed a ha
      have h3 : rshift b 0 ≤ xs.foldl (fun acc x => max acc (rshift x 0)) seed := by
        simpa using foldl_max_ge_mem (fun x => rshift x 0) xs seed b hb
      have h4 : xs.foldl (fun acc x => min acc (rshift x 0)) seed ≤ rshift b 0 := by
        simpa using foldl_min_le_mem (fun x => rshift x 0) xs seed b hb
      omega
    cases hba : comp b a
    · rfl
    · exact absurd (hkeq ▸ hm b hb a ha hba) (Nat.lt_irrefl _)
  · exact spread_rec_sorted cfg rshift comp _ _ xs hm hs

/-- On a range already sorted by key the driver is the identity. -/
theorem spread_sort_eq_self (cfg : SpreadConfig) (rshift : α → Nat → Nat)
    (comp : α → α → Bool) (seed : Nat) (xs : List α)
    (hp : List.Pairwise (fun a b => rshift a 0 ≤ rshift b 0) xs)
    (hm : ∀ x ∈ xs, ∀ y ∈ xs, comp x y = true → rshift x 0 < rshift y 0)
    (hs : ∀ x ∈ xs, ∀ k : Nat, rshift x k = rshift x 0 >>> k) :
    spread_sort cfg rshift comp seed xs = xs := by
  unfold spread_sort
  dsimp only
  split
  · rfl
  · exact spread_rec_eq_self cfg rshift comp _ _ xs hp hm hs

/-! ### Recursion depth of the engine -/

/-- Depth meter mirroring the recursion structure of `spread_rec`: one unit per engine
level, zero for terminated or delegated buckets. -/
def spread_depth (cfg : SpreadConfig) (rshift : α → Nat → Nat) :
    Nat → Nat → List α → Nat
  | 0, _, _ => 0
  | fuel + 1, off, xs =>
    1 + ((bucketize rshift off xs).map (fun b =>
      if b.length ≤ 1 then 0
      else if off = 0 then 0
      else if b.length < cfg.minSortSize then 0
      else spread_depth cfg rshift fuel (off - cfg.bitsPerPass) b)).foldr max 0

/-- Recursion depth of the whole sort, mirroring `spread_sort`. -/
def spread_sort_depth (cfg : SpreadConfig) (rshift : α → Nat → Nat) (seed : Nat)
    (xs : List α) : Nat :=
  let hi := xs.foldl (fun acc x => max acc (rshift x 0)) seed
  let lo := xs.foldl (fun acc x => min acc (rshift x 0)) seed
  if hi = lo then 0
  else
    let off0 := nat_log2 (hi - lo) + 1 - cfg.bitsPerPass
    spread_depth cfg rshift (off0 / cfg.bitsPerPass + 2) off0 xs

theorem foldr_max_le {l : List Nat} {B : Nat} (h : ∀ d ∈ l, d ≤ B) :
    l.foldr max 0 ≤ B := by
  induction l with
  | nil => exact Nat.zero_le _
  | cons d rest ih =>
    rw [List.foldr_cons]
    exact Nat.max_le.2 ⟨h d (List.mem_cons_self _ _),
      ih (fun e he => h e (List.mem_cons_of_mem _ he))⟩

/-- One engine level lowers the remaining-depth budget. -/
theorem bound_step {off p : Nat} (hp : 0 < p) (hoff : off ≠ 0) :
    (off - p + p - 1) / p + 1 ≤ (off + p - 1) / p := by
  rcases Nat.lt_or_ge off p with h | h
  · have h1 : off - p = 0 := by omega
    have h2 : (0 + p - 1) / p = 0 := Nat.div_eq_of_lt (by omega)
    rw [h1, h2]
    exact (Nat.one_le_div_iff hp).2 (by omega)
  · have h1 : off - p + p - 1 = off - 1 := by omega
    have h2 : off - 1 + p = off + p - 1 := by omega
    rw [h1, ← h2, Nat.add_div_right _ hp]

theorem spread_depth_le (cfg : SpreadConfig) (rshift : α → Nat → Nat)
    (hp : 0 < cfg.bitsPerPass) :
    ∀ (fuel off : Nat) (xs : List α),
      spread_depth cfg rshift fuel off xs ≤
        (off + cfg.bitsPerPass - 1) / cfg.bitsPerPass + 1 := by
  intro fuel
  induction fuel with
  | zero => intro off xs; exact Nat.zero_le _
  | succ fuel ih =>
    intro off xs
    show 1 + _ ≤ _
    have hfold : ((bucketize rshift off xs).map (fun b =>
        if b.length ≤ 1 then 0
        else if off = 0 then 0
        else if b.length < cfg.minSortSize then 0
        else spread_depth cfg rshift fuel (off - cfg.bitsPerPass) b)).foldr max 0 ≤
        (off + cfg.bitsPerPass - 1) / cfg.bitsPerPass := by
      refine foldr_max_le ?_
      intro d hd
      rcases List.mem_map.1 hd with ⟨b, _, rfl⟩
      by_cases h1 : b.length ≤ 1
      · rw [if_pos h1]; exact Nat.zero_le _
      · by_cases h2 : off = 0
        · rw [if_neg h1, if_pos h2]; exact Nat.zero_le _
        · by_cases h3 : b.length < cfg.minSortSize
          · rw [if_neg h1, if_neg h2, if_pos h3]; exact Nat.zero_le _
          · rw [if_neg h1, if_neg h2, if_neg h3]
            exact Nat.le_trans (ih (off - cfg.bitsPerPass) b) (bound_step hp h2)
    omega

/-- With a positive bits-per-pass dividing the key bit width, the recursion depth of the
engine on any range of keys below `2 ^ w` is at most `w / bitsPerPass`. -/
theorem spread_sort_depth_le (cfg : SpreadConfig) (rshift : α → Nat → Nat)
    (seed : Nat) (xs : List α) (w : Nat)
    (hp : 0 < cfg.bitsPerPass) (hdvd : cfg.bitsPerPass ∣ w)
    (hseed : seed < 2 ^ w) (hkeys : ∀ x ∈ xs, rshift x 0 < 2 ^ w) :
    spread_sort_depth cfg rshift seed xs ≤ w / cfg.bitsPerPass := by
  unfold spread_sort_depth
  dsimp only
  split
  · exact Nat.zero_le _
  · rename_i hne
    set p := cfg.bitsPerPass with hpdef
    have hhi : xs.foldl (fun acc x => max acc (rshift x 0)) seed < 2 ^ w := by
      have : ∀ ys : List α, ∀ s : Nat, s < 2 ^ w → (∀ x ∈ ys, rshift x 0 < 2 ^ w) →
          ys.foldl (fun acc x => max acc (rshift x 0)) s < 2 ^ w := by
        intro ys
        induction ys with
        | nil => intro s hsw _; exact hsw
        | cons y rest ihy =>
          intro s hsw hys
          rw [List.foldl_cons]
          exact ihy _ (Nat.max_lt.2 ⟨hsw, hys y (List.mem_cons_self _ _)⟩)
            (fun x hx => hys x (List.mem_cons_of_mem _ hx))
      exact this xs seed hseed hkeys
    have hlo : xs.foldl (fun acc x => min acc (rshift x 0)) seed ≤
        xs.foldl (fun acc x => max acc (rshift x 0)) seed := by
      have h1 := foldl_min_le_seed (fun x => rshift x 0) xs seed
      have h2 := foldl_max_ge_seed (fun x => rshift x 0) xs seed
      have h1' : xs.foldl (fun acc x => min acc (rshift x 0)) seed ≤ seed := by
        simpa using h1
      have h2' : seed ≤ xs.foldl (fun acc x => max acc (rshift x 0)) seed := by
        simpa using h2
      omega
    have hw1 : 1 ≤ w := by
      by_contra hw0
      have hw : w = 0 := by omega
      subst hw
      have : xs.foldl (fun acc x => max acc (rshift x 0)) seed = 0 := by omega
      have hz : xs.foldl (fun acc x => min acc (rshift x 0)) seed = 0 := by omega
      exact hne (by omega)
    have hpw : p ≤ w := Nat.le_of_dvd (by omega) hdvd
    have hdiff : xs.foldl (fun acc x => max acc (rshift x 0)) seed -
        xs.foldl (fun acc x => min acc (rshift x 0)) seed ≠ 0 := by omega
    have hlog : nat_log2 (xs.foldl (fun acc x => max acc (rshift x 0)) seed -
        xs.foldl (fun acc x => min acc (rshift x 0)) seed) < w := by
      rw [nat_log2_eq]
      exact (Nat.log2_lt hdiff).2 (by omega)
    have hoff : nat_log2 (xs.foldl (fun acc x => max acc (rshift x 0)) seed -
        xs.foldl (fun acc x => min acc (rshift x 0)) seed) + 1 - p ≤ w - p := by
      omega
    refine Nat.le_trans (spread_depth_le cfg rshift hp _ _ xs) ?_
    have harith : (w - p + p - 1) / p + 1 ≤ w / p := by
      rcases hdvd with ⟨k, hk⟩
      have hk1 : 1 ≤ k := by
        rcases Nat.eq_zero_or_pos k with h | h
        · subst h; omega
        · exact h
      have hwp : w / p = k := by
        rw [hk, Nat.mul_div_cancel_left _ hp]
      have h1 : w - p + p - 1 = p - 1 + p * (k - 1) := by
        rw [hk]; cases k with
        | zero => omega
        | succ k0 => simp [Nat.mul_succ]; omega
      rw [h1, Nat.add_mul_div_left _ _ hp, Nat.div_eq_of_lt (by omega), hwp]
      omega
    refine Nat.le_trans ?_ harith
    have hmono : nat_log2 (xs.foldl (fun acc x => max acc (rshift x 0)) seed -
        xs.foldl (fun acc x => min acc (rshift x 0)) seed) + 1 - p + p - 1 ≤
        w - p + p - 1 := by omega
    exact Nat.add_le_add_right (Nat.div_le_div_right hmono) 1

/-- Enough fuel makes the engine's result independent of the exact fuel value: the
structural bound never fires when the fuel covers the depth budget. -/
theorem spread_rec_fuel_congr (cfg : SpreadConfig) (rshift : α → Nat → Nat)
    (comp : α → α → Bool) (hp : 0 < cfg.bitsPerPass) :
    ∀ (f₁ f₂ off : Nat) (xs : List α),
      (off + cfg.bitsPerPass - 1) / cfg.bitsPerPass + 1 ≤ f₁ →
      (off + cfg.bitsPerPass - 1) / cfg.bitsPerPass + 1 ≤ f₂ →
      spread_rec cfg rshift comp f₁ off xs = spread_rec cfg rshift comp f₂ off xs := by
  intro f₁
  induction f₁ with
  | zero =>
    intro f₂ off xs h1 _
    exact absurd h1 (Nat.not_succ_le_zero _)
  | succ a ih =>
    intro f₂ off xs h1 h2
    cases f₂ with
    | zero => exact absurd h2 (Nat.not_succ_le_zero _)
    | succ b =>
      show (List.map _ _).flatten = (List.map _ _).flatten
      refine congrArg List.flatten (List.map_congr_left ?_)
      intro c hc
      by_cases hc1 : c.length ≤ 1
      · rw [if_pos hc1, if_pos hc1]
      · by_cases hc2 : off = 0
        · rw [if_neg hc1, if_pos hc2, if_neg hc1, if_pos hc2]
        · by_cases hc3 : c.length < cfg.minSortSize
          · rw [if_neg hc1, if_neg hc2, if_pos hc3, if_neg hc1, if_neg hc2, if_pos hc3]
          · rw [if_neg hc1, if_neg hc2, if_neg hc3, if_neg hc1, if_neg hc2, if_neg hc3]
            refine ih b (off - cfg.bitsPerPass) c ?_ ?_
            · exact Nat.le_trans (bound_step hp hc2) (Nat.le_of_succ_le_succ h1)
            · exact Nat.le_trans (bound_step hp hc2) (Nat.le_of_succ_le_succ h2)

/-! ### IEEE-754 single precision model

A `float` is modelled by its 32-bit pattern: sign bit, 8 exponent bits, 23 mantissa
bits.  `toVal` maps a pattern to the represented value as a rational (scaled by the
common factor `2 ^ 150` so that the magnitude is integral); NaN patterns (maximal
exponent, nonzero mantissa) are excluded by the comparison operator, which models
`operator<` on `float`. -/

/-- Exponent field of a 32-bit pattern. -/
def f32_exp (x : Nat) : Nat := x % 2 ^ 31 / 2 ^ 23

/-- Mantissa field of a 32-bit pattern. -/
def f32_mantissa (x : Nat) : Nat := x % 2 ^ 23

/-- NaN: maximal exponent with nonzero mantissa. -/
def f32_isNaN (x : Nat) : Bool := (f32_exp x == 255) && !(f32_mantissa x == 0)

/-- Scaled magnitude of the 31 low bits `r` of a pattern: the represented magnitude is
`magN r * 2 ^ (-150)` (subnormals use exponent field 0 with implicit bit 0). -/
def magN (r : Nat) : Nat :=
  (if r / 2 ^ 23 = 0 then r % 2 ^ 23 else 2 ^ 23 + r % 2 ^ 23) * 2 ^ (max (r / 2 ^ 23) 1)

/-- The rational value represented by a 32-bit pattern (a number even for NaN patterns,
which the comparison operator filters out). -/
def toVal (x : Nat) : ℚ :=
  (if x < 2 ^ 31 then (magN (x % 2 ^ 31) : ℚ) else -(magN (x % 2 ^ 31) : ℚ)) / 2 ^ 150

/-- Executable sign/magnitude comparison of the represented values; proved below to
agree with `toVal a < toVal b`. -/
def valLtB (a b : Nat) : Bool :=
  if a < 2 ^ 31 then
    if b < 2 ^ 31 then decide (magN (a % 2 ^ 31) < magN (b % 2 ^ 31))
    else false
  else
    if b < 2 ^ 31 then
      decide (0 < magN (a % 2 ^ 31)) || decide (0 < magN (b % 2 ^ 31))
    else decide (magN (b % 2 ^ 31) < magN (a % 2 ^ 31))

/-- `operator<` on `float` patterns: false whenever either side is NaN. -/
def floatLtB (a b : Nat) : Bool :=
  !f32_isNaN a && !f32_isNaN b && valLtB a b

/-- Modelled from the spec, section 3, reading the transform literally: "if the sign bit
is set, invert all other bits ...; if clear, flip only the sign bit".  On a sign-set
pattern the sign bit is kept and only the 31 low bits are inverted. -/
def float_to_key_spec_literal (x : Nat) : Nat :=
  if x < 2 ^ 31 then x + 2 ^ 31 else 2 ^ 31 + (2 ^ 31 - 1 - (x - 2 ^ 31))

/-- Modelled from the spec: the order-preserving float-to-key transform of
`detail/float_sort.h` (not among the provided files).  The spec's parentheticals —
larger-magnitude negatives map to smaller keys, and positive values order after all
negatives — force inverting the sign bit as well on sign-set patterns, so a sign-set
pattern has all 32 bits inverted and a sign-clear pattern has the sign bit flipped. -/
def float_to_key (x : Nat) : Nat :=
  if x < 2 ^ 31 then x + 2 ^ 31 else 2 ^ 32 - 1 - x

/-- The default right-shift functor for floats: key extraction composed with a logical
right shift (spec section 4.2). -/
def floatRshift (x : Nat) (off : Nat) : Nat := float_to_key x >>> off

theorem magN_lt_of_exp_lt {r s : Nat} (h : r / 2 ^ 23 < s / 2 ^ 23) :
    magN r < magN s := by
  have hmr : r % 2 ^ 23 < 2 ^ 23 := Nat.mod_lt _ (by norm_num)
  have hms : s % 2 ^ 23 < 2 ^ 23 := Nat.mod_lt _ (by norm_num)
  have hes0 : ¬ s / 2 ^ 23 = 0 := by omega
  have hmaxs : max (s / 2 ^ 23) 1 = s / 2 ^ 23 := by omega
  unfold magN
  rw [hmaxs, if_neg hes0]
  by_cases her : r / 2 ^ 23 = 0
  · rw [if_pos her, her, Nat.zero_max]
    by_cases hes : s / 2 ^ 23 = 1
    · rw [hes]
      exact (Nat.mul_lt_mul_right (by norm_num)).2 (by omega)
    · calc (r % 2 ^ 23) * 2 ^ 1 < 2 ^ 24 * 2 ^ 1 :=
            (Nat.mul_lt_mul_right (by norm_num)).2 (by omega)
        _ = 2 ^ 25 := by norm_num
        _ ≤ 2 ^ (23 + s / 2 ^ 23) := Nat.pow_le_pow_right (by norm_num) (by omega)
        _ = 2 ^ 23 * 2 ^ (s / 2 ^ 23) := by rw [Nat.pow_add]
        _ ≤ (2 ^ 23 + s % 2 ^ 23) * 2 ^ (s / 2 ^ 23) :=
            Nat.mul_le_mul_right _ (Nat.le_add_right _ _)
  · have hmaxr : max (r / 2 ^ 23) 1 = r / 2 ^ 23 := by omega
    rw [if_neg her, hmaxr]
    calc (2 ^ 23 + r % 2 ^ 23) * 2 ^ (r / 2 ^ 23)
        < 2 ^ 24 * 2 ^ (r / 2 ^ 23) :=
          (Nat.mul_lt_mul_right (Nat.pow_pos (by norm_num))).2 (by omega)
      _ = 2 ^ (24 + r / 2 ^ 23) := by rw [Nat.pow_add]
      _ ≤ 2 ^ (23 + s / 2 ^ 23) := Nat.pow_le_pow_right (by norm_num) (by omega)
      _ = 2 ^ 23 * 2 ^ (s / 2 ^ 23) := by rw [Nat.pow_add]
      _ ≤ (2 ^ 23 + s % 2 ^ 23) * 2 ^ (s / 2 ^ 23) :=
          Nat.mul_le_mul_right _ (Nat.le_add_right _ _)

theorem magN_strictMono {r s : Nat} (h : r < s) : magN r < magN s := by
  rcases Nat.lt_or_ge (r / 2 ^ 23) (s / 2 ^ 23) with he | he
  · exact magN_lt_of_exp_lt he
  · have heq : r / 2 ^ 23 = s / 2 ^ 23 := by
      have := Nat.div_le_div_right (c := 2 ^ 23) (Nat.le_of_lt h)
      omega
    have hmr := Nat.div_add_mod r (2 ^ 23)
    have hms := Nat.div_add_mod s (2 ^ 23)
    have hm : r % 2 ^ 23 < s % 2 ^ 23 := by omega
    unfold magN
    rw [heq]
    refine (Nat.mul_lt_mul_right (Nat.pow_pos (by norm_num))).2 ?_
    split <;> omega

theorem magN_lt_iff {r s : Nat} : magN r < magN s ↔ r < s := by
  constructor
  · intro h
    rcases Nat.lt_trichotomy r s with h' | h' | h'
    · exact h'
    · subst h'; exact absurd h (Nat.lt_irrefl _)
    · exact absurd (Nat.lt_trans h (magN_strictMono h')) (Nat.lt_irrefl _)
  · exact magN_strictMono

theorem toVal_nonneg_of_pos {a : Nat} (ha : a < 2 ^ 31) : 0 ≤ toVal a := by
  unfold toVal
  rw [if_pos ha]
  positivity

theorem toVal_nonpos_of_neg {a : Nat} (ha : ¬ a < 2 ^ 31) : toVal a ≤ 0 := by
  unfold toVal
  rw [if_neg ha]
  have h1 : (0:ℚ) ≤ (magN (a % 2 ^ 31) : ℚ) := Nat.cast_nonneg _
  have h2 : (0:ℚ) < 2 ^ 150 := by positivity
  exact div_nonpos_of_nonpos_of_nonneg (by linarith) (le_of_lt h2)

/-- The corrected float-to-key transform is strictly monotone in the represented value on
all 32-bit patterns. -/
theorem float_to_key_mono {a b : Nat} (ha : a < 2 ^ 32) (hb : b < 2 ^ 32)
    (h : toVal a < toVal b) : float_to_key a < float_to_key b := by
  have hpos : (0:ℚ) < 2 ^ 150 := by positivity
  by_cases sa : a < 2 ^ 31
  · by_cases sb : b < 2 ^ 31
    · -- both positive: value order is magnitude order is pattern order
      have hma : a % 2 ^ 31 = a := Nat.mod_eq_of_lt sa
      have hmb : b % 2 ^ 31 = b := Nat.mod_eq_of_lt sb
      have h' : (magN a : ℚ) < magN b := by
        have := (div_lt_div_iff_of_pos_right hpos).1 (by
          unfold toVal at h
          rw [if_pos sa, if_pos sb, hma, hmb] at h
          exact h)
        exact this
      have hlt : a < b := magN_lt_iff.1 (by exact_mod_cast h')
      unfold float_to_key
      rw [if_pos sa, if_pos sb]
      omega
    · -- a positive, b negative: impossible, values are separated by zero
      exact absurd h (not_lt.2 (le_trans (toVal_nonpos_of_neg sb)
        (toVal_nonneg_of_pos sa)))
  · by_cases sb : b < 2 ^ 31
    · -- a negative, b positive: all negative keys are below all positive keys
      unfold float_to_key
      rw [if_neg sa, if_pos sb]
      have e31 : (2:Nat) ^ 31 ≤ a := Nat.le_of_not_lt sa
      have e32 : (2:Nat) ^ 32 = 2 ^ 31 + 2 ^ 31 := by norm_num
      omega
    · -- both negative: value order is reversed magnitude order
      have h' : (magN (b % 2 ^ 31) : ℚ) < magN (a % 2 ^ 31) := by
        unfold toVal at h
        rw [if_neg sa, if_neg sb] at h
        have := (div_lt_div_iff_of_pos_right hpos).1 h
        linarith
      have hlt : b % 2 ^ 31 < a % 2 ^ 31 := magN_lt_iff.1 (by exact_mod_cast h')
      have hamod : a % 2 ^ 31 = a - 2 ^ 31 := by
        have e31 : (2:Nat) ^ 31 ≤ a := Nat.le_of_not_lt sa
        have e32 : (2:Nat) ^ 32 = 2 ^ 31 + 2 ^ 31 := by norm_num
        omega
      have hbmod : b % 2 ^ 31 = b - 2 ^ 31 := by
        have e31 : (2:Nat) ^ 31 ≤ b := Nat.le_of_not_lt sb
        have e32 : (2:Nat) ^ 32 = 2 ^ 31 + 2 ^ 31 := by norm_num
        omega
      unfold float_to_key
      rw [if_neg sa, if_neg sb]
      have e31a : (2:Nat) ^ 31 ≤ a := Nat.le_of_not_lt sa
      have e31b : (2:Nat) ^ 31 ≤ b := Nat.le_of_not_lt sb
      have e32 : (2:Nat) ^ 32 = 2 ^ 31 + 2 ^ 31 := by norm_num
      omega

/-- The executable comparison agrees with the rational semantics. -/
theorem valLtB_iff {a b : Nat} : valLtB a b = true ↔ toVal a < toVal b := by
  have hpos : (0:ℚ) < 2 ^ 150 := by positivity
  have hA : (0:ℚ) ≤ (magN (a % 2 ^ 31) : ℚ) := Nat.cast_nonneg _
  have hB : (0:ℚ) ≤ (magN (b % 2 ^ 31) : ℚ) := Nat.cast_nonneg _
  unfold valLtB toVal
  by_cases sa : a < 2 ^ 31
  · by_cases sb : b < 2 ^ 31
    · rw [if_pos sa, if_pos sb, if_pos sa, if_pos sb]
      rw [div_lt_div_iff_of_pos_right hpos]
      simp
    · rw [if_pos sa, if_neg sb, if_pos sa, if_neg sb]
      constructor
      · intro h; cases h
      · intro h
        exfalso
        rw [div_lt_div_iff_of_pos_right hpos] at h
        linarith
  · by_cases sb : b < 2 ^ 31
    · rw [if_neg sa, if_pos sb, if_neg sa, if_pos sb]
      rw [div_lt_div_iff_of_pos_right hpos]
      simp only [Bool.or_eq_true, decide_eq_true_eq]
      constructor
      · rintro (h | h)
        · have h' : (0:ℚ) < (magN (a % 2 ^ 31) : ℚ) := by exact_mod_cast h
          linarith
        · have h' : (0:ℚ) < (magN (b % 2 ^ 31) : ℚ) := by exact_mod_cast h
          linarith
      · intro h
        by_contra hcon
        push_neg at hcon
        have h1 : magN (a % 2 ^ 31) = 0 := by omega
        have h2 : magN (b % 2 ^ 31) = 0 := by omega
        rw [h1, h2] at h
        simp at h
    · rw [if_neg sa, if_neg sb, if_neg sa, if_neg sb]
      rw [div_lt_div_iff_of_pos_right hpos, neg_lt_neg_iff]
      simp

/-- `operator<` on float patterns is monotone into the corrected key transform; NaN
comparisons are false, so the implication holds for every pattern. -/
theorem floatLtB_key_mono {a b : Nat} (ha : a < 2 ^ 32) (hb : b < 2 ^ 32)
    (h : floatLtB a b = true) : float_to_key a < float_to_key b := by
  unfold floatLtB at h
  simp only [Bool.and_eq_true] at h
  exact float_to_key_mono ha hb (valLtB_iff.1 h.2)

/-! ### The public `float_sort` entry points

Translated from `src/include/cpp-sort/detail/spreadsort/float_sort.h`.  Each overload
short-circuits ranges smaller than the minimum sort size to `pdqsort` with an identity
projection and otherwise delegates to the recursive engine; the two customizable
overloads seed the engine's range estimation with `rshift(*first, 0)`.  In the C++
sources the element dereference `*first` appears only on the non-short-circuit path, so
the model pattern-matches the list only there (the empty case of that match is
unreachable whenever `min_sort_size` is at least one). -/

/-- The one-argument overload (`float_sort(first, last)`, lines 92-100): default
ordering, default float key extraction. -/
def float_sort1 (cfg : SpreadConfig) (xs : List Nat) : List Nat :=
  if xs.length < cfg.minSortSize then pdqsort floatLtB id xs
  else
    match xs with
    | [] => []
    | x :: _ => spread_sort cfg floatRshift floatLtB (floatRshift x 0) xs

/-- The two-argument overload (`float_sort(first, last, rshift)`, lines 110-119):
custom right-shift functor, default ordering `lt` of the element type. -/
def float_sort2 (cfg : SpreadConfig) (lt : α → α → Bool) (rshift : α → Nat → Nat)
    (xs : List α) : List α :=
  if xs.length < cfg.minSortSize then pdqsort lt id xs
  else
    match xs with
    | [] => []
    | x :: _ => spread_sort cfg rshift lt (rshift x 0) xs

/-- The three-argument overload (`float_sort(first, last, rshift, comp)`,
lines 131-140): custom right-shift functor and user comparator. -/
def float_sort3 (cfg : SpreadConfig) (rshift : α → Nat → Nat) (comp : α → α → Bool)
    (xs : List α) : List α :=
  if xs.length < cfg.minSortSize then pdqsort comp id xs
  else
    match xs with
    | [] => []
    | x :: _ => spread_sort cfg rshift comp (rshift x 0) xs

theorem float_sort1_perm (cfg : SpreadConfig) (xs : List Nat) :
    (float_sort1 cfg xs).Perm xs := by
  unfold float_sort1
  split
  · exact pdqsort_perm _ _ xs
  · match xs with
    | [] => exact List.Perm.refl _
    | x :: rest => exact spread_sort_perm cfg floatRshift floatLtB _ _

theorem float_sort2_perm (cfg : SpreadConfig) (lt : α → α → Bool)
    (rshift : α → Nat → Nat) (xs : List α) : (float_sort2 cfg lt rshift xs).Perm xs := by
  unfold float_sort2
  split
  · exact pdqsort_perm _ _ xs
  · match xs with
    | [] => exact List.Perm.refl _
    | x :: rest => exact spread_sort_perm cfg rshift lt _ _

theorem float_sort3_perm (cfg : SpreadConfig) (rshift : α → Nat → Nat)
    (comp : α → α → Bool) (xs : List α) : (float_sort3 cfg rshift comp xs).Perm xs := by
  unfold float_sort3
  split
  · exact pdqsort_perm _ _ xs
  · match xs with
    | [] => exact List.Perm.refl _
    | x :: rest => exact spread_sort_perm cfg rshift comp _ _

theorem float_sort2_sorted (cfg : SpreadConfig) (lt : α → α → Bool)
    (rshift : α → Nat → Nat) (xs : List α)
    (hm : ∀ x ∈ xs, ∀ y ∈ xs, lt x y = true → rshift x 0 < rshift y 0)
    (hs : ∀ x ∈ xs, ∀ k : Nat, rshift x k = rshift x 0 >>> k) :
    SortedB lt (float_sort2 cfg lt rshift xs) := by
  unfold float_sort2
  split
  · exact insertionSortB_sorted (asym_of_mono (fun x => rshift x 0) hm)
  · match xs with
    | [] => exact List.chain'_nil
    | x :: rest => exact spread_sort_sorted cfg rshift lt _ _ hm hs

theorem float_sort3_sorted (cfg : SpreadConfig) (rshift : α → Nat → Nat)
    (comp : α → α → Bool) (xs : List α)
    (hm : ∀ x ∈ xs, ∀ y ∈ xs, comp x y = true → rshift x 0 < rshift y 0)
    (hs : ∀ x ∈ xs, ∀ k : Nat, rshift x k = rshift x 0 >>> k) :
    SortedB comp (float_sort3 cfg rshift comp xs) := by
  unfold float_sort3
  split
  · exact insertionSortB_sorted (asym_of_mono (fun x => rshift x 0) hm)
  · match xs with
    | [] => exact List.chain'_nil
    | x :: rest => exact spread_sort_sorted cfg rshift comp _ _ hm hs

theorem floatRshift_shift (x : Nat) : ∀ k : Nat, floatRshift x k = floatRshift x 0 >>> k := by
  intro k
  unfold floatRshift
  rw [Nat.shiftRight_zero]

theorem float_sort1_sorted (cfg : SpreadConfig) (xs : List Nat)
    (hb : ∀ x ∈ xs, x < 2 ^ 32) : SortedB floatLtB (float_sort1 cfg xs) := by
  unfold float_sort1
  have hm : ∀ x ∈ xs, ∀ y ∈ xs, floatLtB x y = true → floatRshift x 0 < floatRshift y 0 := by
    intro x hx y hy hlt
    unfold floatRshift
    rw [Nat.shiftRight_zero, Nat.shiftRight_zero]
    exact floatLtB_key_mono (hb x hx) (hb y hy) hlt
  split
  · exact insertionSortB_sorted (asym_of_mono (fun x => floatRshift x 0) hm)
  · match xs with
    | [] => exact List.chain'_nil
    | x :: rest =>
      exact spread_sort_sorted cfg floatRshift floatLtB _ _ hm
        (fun x _ k => floatRshift_shift x k)

/-! ### Fixed-size sorting networks

`sorting_network_sorter_impl<2>` is translated from
`src/include/cpp-sort/detail/sorting_network/sort2.h`; the 31-input network is
translated from the provided `sort31.h` source.  A network is a fixed list of index
pairs executed left to right, so the compare-and-swap schedule is data-independent by
construction. -/

/-- Modelled from the spec: `swap_if(x, y, compare)` from `swap_if.h` (not among the
provided files): the compare-and-swap primitive, swapping the elements at `i` and `j`
exactly when the second compares strictly below the first. -/
def swap_if (comp : α → α → Bool) (l : List α) (i j : Nat) : List α :=
  match l[i]?, l[j]? with
  | some a, some b => if comp b a then (l.set i b).set j a else l
  | _, _ => l

/-- `sorting_network_sorter_impl<2>::operator()` (sort2.h line 47): a single
compare-and-swap of the two elements. -/
def sort2 (comp : α → α → Bool) (l : List α) : List α := swap_if comp l 0 1

/-- The compare-and-swap schedule of `sorting_network_sorter_impl<31>::operator()`
(sort31.h lines 50-113), in source order. -/
def net31 : List (Nat × Nat) :=
  [(0, 16), (8, 24), (8, 16), (4, 20), (12, 28), (12, 20), (4, 8), (12, 16), (20, 24),
   (2, 18), (10, 26), (10, 18), (6, 22), (14, 30), (14, 22), (6, 10), (14, 18),
   (22, 26), (2, 4), (6, 8), (10, 12), (14, 16), (18, 20), (22, 24), (26, 28),
   (1, 17), (9, 25), (9, 17), (5, 21), (13, 29), (13, 21), (5, 9), (13, 17), (21, 25),
   (3, 19), (11, 27), (11, 19), (7, 23), (15, 23), (7, 11), (15, 19), (23, 27),
   (3, 5), (7, 9), (11, 13), (15, 17), (19, 21), (23, 25), (27, 29),
   (1, 2), (3, 4), (5, 6), (7, 8), (9, 10), (11, 12), (13, 14), (15, 16), (17, 18),
   (19, 20), (21, 22), (23, 24), (25, 26), (27, 28), (29, 30)]

/-- Execution of a network: the compare-and-swap operations applied left to right. -/
def runNetwork (comp : α → α → Bool) (net : List (Nat × Nat)) (l : List α) : List α :=
  net.foldl (fun acc p => swap_if comp acc p.1 p.2) l

/-- `sorting_network_sorter_impl<31>::operator()` (sort31.h lines 44-114): sort the
first 16 and the last 15 elements, then run the fixed merge schedule.  The
sub-sorters `sorting_network_sorter<16>` and `<15>` are not among the provided files
and are modelled from the spec's collaborator contract (section 6: they produce the
same ordering guarantee as the Fallback Comparison Sort for their exact size). -/
def sort31 (comp : α → α → Bool) (l : List α) : List α :=
  runNetwork comp net31
    (insertionSortB comp (l.take 16) ++ insertionSortB comp (l.drop 16))

theorem cons_set_perm :
    ∀ (xs : List α) (k : Nat) (a b : α), xs[k]? = some b →
      (b :: xs.set k a).Perm (a :: xs) := by
  intro xs
  induction xs with
  | nil => intro k a b h; simp at h
  | cons y ys ih =>
    intro k a b h
    cases k with
    | zero =>
      have hby : y = b := by simpa using h
      subst hby
      show (y :: a :: ys).Perm (a :: y :: ys)
      exact List.Perm.swap a y ys
    | succ k0 =>
      have h' : ys[k0]? = some b := by simpa using h
      show (b :: y :: ys.set k0 a).Perm (a :: y :: ys)
      exact ((List.Perm.swap y b (ys.set k0 a)).trans
        ((ih k0 a b h').cons y)).trans (List.Perm.swap a y ys)

theorem set_set_swap_perm :
    ∀ (l : List α) (i j : Nat) (a b : α), l[i]? = some a → l[j]? = some b →
      ((l.set i b).set j a).Perm l := by
  intro l
  induction l with
  | nil => intro i j a b hi _; simp at hi
  | cons x xs ih =>
    intro i j a b hi hj
    cases i with
    | zero =>
      have hax : x = a := by simpa using hi
      cases j with
      | zero =>
        have hbx : x = b := by simpa using hj
        subst hax
        subst hbx
        show (x :: xs).Perm (x :: xs)
        exact List.Perm.refl _
      | succ j0 =>
        have hj' : xs[j0]? = some b := by simpa using hj
        subst hax
        show (b :: xs.set j0 x).Perm (x :: xs)
        exact cons_set_perm xs j0 x b hj'
    | succ i0 =>
      have hi' : xs[i0]? = some a := by simpa using hi
      cases j with
      | zero =>
        have hbx : x = b := by simpa using hj
        subst hbx
        show (a :: xs.set i0 x).Perm (x :: xs)
        exact cons_set_perm xs i0 x a hi'
      | succ j0 =>
        have hj' : xs[j0]? = some b := by simpa using hj
        show (x :: (xs.set i0 b).set j0 a).Perm (x :: xs)
        exact (ih i0 j0 a b hi' hj').cons x

theorem swap_if_perm (comp : α → α → Bool) (l : List α) (i j : Nat) :
    (swap_if comp l i j).Perm l := by
  unfold swap_if
  cases hi : l[i]? with
  | none => exact List.Perm.refl _
  | some a =>
    cases hj : l[j]? with
    | none => exact List.Perm.refl _
    | some b =>
      show (if comp b a = true then (l.set i b).set j a else l).Perm l
      split
      · exact set_set_swap_perm l i j a b hi hj
      · exact List.Perm.refl _

theorem runNetwork_perm (comp : α → α → Bool) :
    ∀ (net : List (Nat × Nat)) (l : List α), (runNetwork comp net l).Perm l := by
  intro net
  induction net with
  | nil => intro l; exact List.Perm.refl _
  | cons p rest ih =>
    intro l
    show (runNetwork comp rest (swap_if comp l p.1 p.2)).Perm l
    exact (ih _).trans (swap_if_perm comp l p.1 p.2)

theorem swap_if_length (comp : α → α → Bool) (l : List α) (i j : Nat) :
    (swap_if comp l i j).length = l.length :=
  (swap_if_perm comp l i j).length_eq

theorem sort31_perm (comp : α → α → Bool) (l : List α) : (sort31 comp l).Perm l := by
  unfold sort31
  refine (runNetwork_perm comp net31 _).trans ?_
  refine List.Perm.trans
    ((insertionSortB_perm comp (l.take 16)).append (insertionSortB_perm comp (l.drop 16)))
    ?_
  rw [List.take_append_drop]

/-! ### Correctness of the 31-input network via the zero-one principle

An adjacent inversion in the output is mapped through a monotone two-valued threshold
function; compare-and-swap schedules commute with such maps, and the schedule is checked
on every two-valued input whose halves are sorted. -/

/-- Comparator of the two-valued images. -/
def lt01 (x y : Nat) : Bool := decide (x < y)

/-- The two-valued input with sorted halves: `i` ones in the first 16 positions and `k`
ones in the last 15. -/
def mk01 (i k : Nat) : List Nat :=
  (List.replicate (16 - i) 0 ++ List.replicate i 1) ++
    (List.replicate (15 - k) 0 ++ List.replicate k 1)

theorem set_getElem?_self :
    ∀ (l : List α) (i : Nat) (a : α), l[i]? = some a → l.set i a = l := by
  intro l
  induction l with
  | nil => intro i a h; simp at h
  | cons x xs ih =>
    intro i a h
    cases i with
    | zero =>
      have hax : x = a := by simpa using h
      subst hax
      rfl
    | succ i0 =>
      have h' : xs[i0]? = some a := by simpa using h
      show x :: xs.set i0 a = x :: xs
      rw [ih i0 a h']

/-- A compare-and-swap commutes with a threshold map that is compatible with the
comparator (derived below from the strict-weak-ordering laws). -/
theorem swap_if_map_comm {comp : α → α → Bool} {g : α → Nat} (l : List α) (i j : Nat)
    (hcompat : ∀ a b, (comp b a = true → ¬ (g b < g a) → g a = g b) ∧
      (comp b a = false → g b < g a → False)) :
    (swap_if comp l i j).map g = swap_if lt01 (l.map g) i j := by
  unfold swap_if
  cases hi : l[i]? with
  | none =>
    have hi' : (l.map g)[i]? = none := by simp [hi]
    rw [hi']
  | some a =>
    have hi' : (l.map g)[i]? = some (g a) := by simp [hi]
    cases hj : l[j]? with
    | none =>
      have hj' : (l.map g)[j]? = none := by simp [hj]
      rw [hi', hj']
    | some b =>
      have hj' : (l.map g)[j]? = some (g b) := by simp [hj]
      rw [hi', hj']
      show (if comp b a = true then (l.set i b).set j a else l).map g =
        if lt01 (g b) (g a) = true then ((l.map g).set i (g b)).set j (g a) else l.map g
      cases hc : comp b a with
      | true =>
        rw [if_pos rfl]
        cases hlt : lt01 (g b) (g a) with
        | true =>
          rw [if_pos rfl]
          rw [List.map_set, List.map_set]
        | false =>
          rw [if_neg (by simp)]
          have hgab : g a = g b := by
            refine (hcompat a b).1 hc ?_
            intro hlt'
            rw [show lt01 (g b) (g a) = true by simpa [lt01] using hlt'] at hlt
            cases hlt
          rw [List.map_set, List.map_set]
          rw [← hgab]
          rw [set_getElem?_self _ i (g a) (by rw [hi', hgab])]
          rw [set_getElem?_self _ j (g a) (by
            rw [hj', hgab])]
      | false =>
        rw [if_neg (by simp)]
        cases hlt : lt01 (g b) (g a) with
        | true =>
          exfalso
          exact (hcompat a b).2 hc (by simpa [lt01] using hlt)
        | false =>
          rw [if_neg (by simp)]

/-- A whole network commutes with a compatible threshold map. -/
theorem runNetwork_map_comm {comp : α → α → Bool} {g : α → Nat}
    (hcompat : ∀ a b, (comp b a = true → ¬ (g b < g a) → g a = g b) ∧
      (comp b a = false → g b < g a → False)) :
    ∀ (net : List (Nat × Nat)) (l : List α),
      (runNetwork comp net l).map g = runNetwork lt01 net (l.map g) := by
  intro net
  induction net with
  | nil => intro l; rfl
  | cons p rest ih =>
    intro l
    show (runNetwork comp rest (swap_if comp l p.1 p.2)).map g = _
    rw [ih (swap_if comp l p.1 p.2), swap_if_map_comm l p.1 p.2 hcompat]
    rfl

/-- A sorted two-valued list is a block of zeros followed by a block of ones. -/
theorem sorted01_canonical :
    ∀ s : List Nat, (∀ x ∈ s, x ≤ 1) → SortedB lt01 s →
      ∃ k ≤ s.length, s = List.replicate (s.length - k) 0 ++ List.replicate k 1 := by
  intro s
  induction s with
  | nil => intro _ _; exact ⟨0, Nat.le_refl _, rfl⟩
  | cons x rest ih =>
    intro hb hs
    rcases ih (fun y hy => hb y (List.mem_cons_of_mem _ hy)) hs.tail with ⟨k, hk, hrest⟩
    have hx : x = 0 ∨ x = 1 := by
      have := hb x (List.mem_cons_self _ _)
      omega
    rcases hx with hx | hx
    · subst hx
      refine ⟨k, Nat.le_trans hk (Nat.le_succ _), ?_⟩
      have hlen : (0 :: rest).length - k = (rest.length - k) + 1 := by
        simp only [List.length_cons]
        omega
      rw [hlen, List.replicate_succ, List.cons_append, ← hrest]
    · subst hx
      have hzero : rest.length - k = 0 := by
        by_contra hnz
        have hhead : rest.head? = some 0 := by
          rw [hrest]
          cases hrl : rest.length - k with
          | zero => exact absurd hrl hnz
          | succ m => rw [List.replicate_succ, List.cons_append]; rfl
        have hpair := (List.chain'_cons'.1 hs).1 0 hhead
        simp [lt01] at hpair
      refine ⟨k + 1, by simp only [List.length_cons]; omega, ?_⟩
      have hrk : rest.length = k := by omega
      have hrest' : rest = List.replicate k 1 := by
        rw [hrest, hzero, List.replicate_zero, List.nil_append]
      rw [hrest']
      have hlen : (1 :: List.replicate k 1).length - (k + 1) = 0 := by simp
      rw [hlen, List.replicate_zero, List.nil_append, ← List.replicate_succ]

/-- Two-valued list decoded from a bit mask: position `t` holds 1 exactly when bit `t`
of `m` is set.  Network runs on such lists are computed through kernel-friendly
arithmetic on the mask. -/
def listOfBits (n m : Nat) : List Nat :=
  (List.range n).map (fun t => if m.testBit t then 1 else 0)

/-- Compare-and-swap on a bit mask: a set bit `i` and a clear bit `j` are both
flipped. -/
def swapBit (m i j : Nat) : Nat :=
  if m.testBit i && !m.testBit j then m ^^^ 2 ^ i ^^^ 2 ^ j else m

/-- The whole network on a bit mask. -/
def runNetworkBits (net : List (Nat × Nat)) (m : Nat) : Nat :=
  net.foldl (fun acc p => swapBit acc p.1 p.2) m

/-- The mask whose decoded 31-element list is `mk01 i k`. -/
def mask01 (i k : Nat) : Nat := (2 ^ 16 - 2 ^ (16 - i)) + (2 ^ 31 - 2 ^ (31 - k))

theorem length_listOfBits (n m : Nat) : (listOfBits n m).length = n := by
  unfold listOfBits
  rw [List.length_map, List.length_range]

theorem getElem?_listOfBits {n m t : Nat} :
    (listOfBits n m)[t]? =
      if t < n then some (if m.testBit t then 1 else 0) else none := by
  unfold listOfBits
  rw [List.getElem?_map]
  by_cases h : t < n
  · rw [List.getElem?_range h, if_pos h]
    rfl
  · rw [if_neg h, List.getElem?_eq_none (by simpa using Nat.le_of_not_lt h)]
    rfl

theorem swap_if_listOfBits {n m i j : Nat} (hi : i < n) (hj : j < n) :
    swap_if lt01 (listOfBits n m) i j = listOfBits n (swapBit m i j) := by
  have hli : (listOfBits n m)[i]? = some (if m.testBit i then 1 else 0) := by
    rw [getElem?_listOfBits, if_pos hi]
  have hlj : (listOfBits n m)[j]? = some (if m.testBit j then 1 else 0) := by
    rw [getElem?_listOfBits, if_pos hj]
  unfold swap_if
  rw [hli, hlj]
  show (if lt01 (if m.testBit j then 1 else 0) (if m.testBit i then 1 else 0) = true
      then ((listOfBits n m).set i (if m.testBit j then 1 else 0)).set j
        (if m.testBit i then 1 else 0)
      else listOfBits n m) = listOfBits n (swapBit m i j)
  unfold swapBit
  cases hbi : m.testBit i with
  | false =>
    cases hbj : m.testBit j with
    | false => simp [lt01]
    | true => simp [lt01]
  | true =>
    cases hbj : m.testBit j with
    | true => simp [lt01]
    | false =>
      have hij : i ≠ j := fun h => by rw [h, hbj] at hbi; cases hbi
      norm_num [lt01]
      refine List.ext_getElem? ?_
      intro t
      have hlen1 : ((listOfBits n m).set i 0).length = n := by
        rw [List.length_set, length_listOfBits]
      rw [List.getElem?_set, List.getElem?_set, hlen1, length_listOfBits,
        getElem?_listOfBits]
      have hxor : ∀ u : Nat, (m ^^^ 2 ^ i ^^^ 2 ^ j).testBit u =
          ((m.testBit u).xor (decide (i = u))).xor (decide (j = u)) := by
        intro u
        rw [Nat.testBit_xor, Nat.testBit_xor, Nat.testBit_two_pow, Nat.testBit_two_pow]
      by_cases htj : j = t
      · subst htj
        rw [if_pos rfl, if_pos hj, getElem?_listOfBits, if_pos hj, hxor j]
        rw [hbj, decide_eq_false hij, decide_eq_true rfl]
        rfl
      · rw [if_neg htj]
        by_cases hti : i = t
        · subst hti
          rw [if_pos rfl, if_pos hi, getElem?_listOfBits, if_pos hi, hxor i]
          rw [hbi, decide_eq_true rfl, decide_eq_false (fun h => hij h.symm)]
          rfl
        · rw [if_neg hti, getElem?_listOfBits]
          by_cases htn : t < n
          · rw [if_pos htn, if_pos htn, hxor t]
            rw [decide_eq_false hti, decide_eq_false htj]
            rw [Bool.xor_false, Bool.xor_false]
          · rw [if_neg htn, if_neg htn]

theorem runNetwork_listOfBits {n : Nat} :
    ∀ (net : List (Nat × Nat)) (m : Nat), (∀ p ∈ net, p.1 < n ∧ p.2 < n) →
      runNetwork lt01 net (listOfBits n m) = listOfBits n (runNetworkBits net m) := by
  intro net
  induction net with
  | nil => intro m _; rfl
  | cons p rest ih =>
    intro m hp
    show runNetwork lt01 rest (swap_if lt01 (listOfBits n m) p.1 p.2) =
      listOfBits n (runNetworkBits rest (swapBit m p.1 p.2))
    rw [swap_if_listOfBits (hp p (List.mem_cons_self _ _)).1
      (hp p (List.mem_cons_self _ _)).2]
    exact ih _ (fun q hq => hp q (List.mem_cons_of_mem _ hq))

set_option maxRecDepth 4000 in
set_option maxHeartbeats 2000000 in
/-- Finite check: the merge schedule of the 31-input network sorts every two-valued
input whose two halves are sorted.  The network run is evaluated on bit masks. -/
theorem net31_01_check :
    ∀ i < 17, ∀ k < 16, SortedB lt01 (runNetwork lt01 net31 (mk01 i k)) := by
  have hval : ∀ i < 17, ∀ k < 16, mk01 i k = listOfBits 31 (mask01 i k) := by decide
  have hidx : ∀ p ∈ net31, p.1 < 31 ∧ p.2 < 31 := by decide
  have hsorted : ∀ i < 17, ∀ k < 16,
      SortedB lt01 (listOfBits 31 (runNetworkBits net31 (mask01 i k))) := by decide
  intro i hi k hk
  rw [hval i hi k hk, runNetwork_listOfBits net31 (mask01 i k) hidx]
  exact hsorted i hi k hk

theorem sort2_perm (comp : α → α → Bool) (l : List α) : (sort2 comp l).Perm l :=
  swap_if_perm comp l 0 1

/-- The two-input network sorts every 2-element range for every asymmetric
comparator. -/
theorem sort2_sorted {comp : α → α → Bool} {l : List α} (hlen : l.length = 2)
    (hasym : ∀ p q, comp p q = true → comp q p = false) :
    SortedB comp (sort2 comp l) := by
  match l, hlen with
  | [x, y], _ =>
    show SortedB comp (swap_if comp [x, y] 0 1)
    unfold swap_if
    show SortedB comp (if comp y x = true then ([x, y].set 0 y).set 1 x else [x, y])
    cases hc : comp y x with
    | false =>
      rw [if_neg Bool.false_ne_true]
      exact List.chain'_cons.2 ⟨hc, List.chain'_singleton y⟩
    | true =>
      rw [if_pos rfl]
      show SortedB comp [y, x]
      exact List.chain'_cons.2 ⟨hasym y x hc, List.chain'_singleton x⟩

attribute [irreducible] swap_if runNetwork mk01 listOfBits swapBit runNetworkBits

set_option maxRecDepth 4000 in
/-- The 31-input network sorts every 31-element range, for every comparator satisfying
the strict-weak-ordering laws (irreflexivity, transitivity, negative transitivity). -/
theorem sort31_sorted {comp : α → α → Bool} {l : List α} (hlen : l.length = 31)
    (hirr : ∀ a, comp a a = false)
    (htr : ∀ a b c, comp a b = true → comp b c = true → comp a c = true)
    (hnt : ∀ a b c, comp a c = true → comp a b = true ∨ comp b c = true) :
    SortedB comp (sort31 comp l) := by
  have hasym : ∀ p q, comp p q = true → comp q p = false := by
    intro p q hpq
    cases hqp : comp q p with
    | false => rfl
    | true =>
      have := htr p q p hpq hqp
      rw [hirr p] at this
      cases this
  generalize hout : sort31 comp l = out
  show List.Chain' (fun x y => comp y x = false) out
  rw [List.chain'_iff_get]
  intro jj hjlt
  set a := out.get ⟨jj, by omega⟩ with ha
  set b := out.get ⟨jj + 1, by omega⟩ with hb
  show comp b a = false
  cases hcomp : comp b a with
  | false => rfl
  | true =>
    exfalso
    set g : α → Nat := fun x => if comp x a then (0:Nat) else 1 with hg
    have hgval : ∀ x, g x = 0 ∨ g x = 1 := by
      intro x
      by_cases h : comp x a = true
      · exact Or.inl (by simp [hg, h])
      · exact Or.inr (by simp [hg, h])
    have hg0 : ∀ x, g x = 0 ↔ comp x a = true := by
      intro x
      constructor
      · intro h
        by_contra hc
        have : g x = 1 := by simp [hg, hc]
        omega
      · intro h
        simp [hg, h]
    have hg1 : ∀ x, g x = 1 ↔ comp x a = false := by
      intro x
      constructor
      · intro h
        cases hc : comp x a with
        | false => rfl
        | true =>
          have : g x = 0 := (hg0 x).2 hc
          omega
      · intro h
        have : ¬ comp x a = true := by rw [h]; exact Bool.false_ne_true
        simp [hg, this]
    have hcompat : ∀ x y, (comp y x = true → ¬ (g y < g x) → g x = g y) ∧
        (comp y x = false → g y < g x → False) := by
      intro x y
      constructor
      · intro hyx hlt
        rcases hgval x with hx | hx <;> rcases hgval y with hy | hy
        · rw [hx, hy]
        · exfalso
          have hxa : comp x a = true := (hg0 x).1 hx
          have hya : comp y a = false := (hg1 y).1 hy
          rw [htr y x a hyx hxa] at hya
          cases hya
        · exact absurd (by omega) hlt
        · rw [hx, hy]
      · intro hyx hlt
        have hy0 : g y = 0 := by
          rcases hgval x with hx | hx <;> rcases hgval y with hy | hy <;> omega
        have hx1 : g x = 1 := by
          rcases hgval x with hx | hx <;> rcases hgval y with hy | hy <;> omega
        have hya : comp y a = true := (hg0 y).1 hy0
        have hxa : comp x a = false := (hg1 x).1 hx1
        rcases hnt y x a hya with h | h
        · rw [h] at hyx; cases hyx
        · rw [h] at hxa; cases hxa
    have hcommute := runNetwork_map_comm hcompat net31
      (insertionSortB comp (l.take 16) ++ insertionSortB comp (l.drop 16))
    have hmapu : (insertionSortB comp (l.take 16) ++
        insertionSortB comp (l.drop 16)).map g =
        (insertionSortB comp (l.take 16)).map g ++
        (insertionSortB comp (l.drop 16)).map g := List.map_append g _ _
    have hsorted_half : ∀ s : List α, SortedB comp s → SortedB lt01 (s.map g) := by
      intro s hs
      rw [SortedB, List.chain'_map]
      refine List.Chain'.imp ?_ hs
      intro x y hxy
      cases hc : lt01 (g y) (g x) with
      | false => rfl
      | true =>
        exfalso
        exact (hcompat x y).2 hxy (by simpa [lt01] using hc)
    have hbound_half : ∀ s : List α, ∀ v ∈ s.map g, v ≤ 1 := by
      intro s v hv
      rcases List.mem_map.1 hv with ⟨x, _, rfl⟩
      rcases hgval x with h | h <;> omega
    have hlen1 : ((insertionSortB comp (l.take 16)).map g).length = 16 := by
      rw [List.length_map, length_insertionSortB, List.length_take, hlen]
      omega
    have hlen2 : ((insertionSortB comp (l.drop 16)).map g).length = 15 := by
      rw [List.length_map, length_insertionSortB, List.length_drop, hlen]
    obtain ⟨k1, hk1, heq1⟩ := sorted01_canonical _
      (hbound_half (insertionSortB comp (l.take 16)))
      (hsorted_half _ (insertionSortB_sorted (fun p _ q _ => hasym p q)))
    obtain ⟨k2, hk2, heq2⟩ := sorted01_canonical _
      (hbound_half (insertionSortB comp (l.drop 16)))
      (hsorted_half _ (insertionSortB_sorted (fun p _ q _ => hasym p q)))
    rw [hlen1] at heq1 hk1
    rw [hlen2] at heq2 hk2
    have hmk : (insertionSortB comp (l.take 16) ++
        insertionSortB comp (l.drop 16)).map g = mk01 k1 k2 := by
      rw [hmapu, heq1, heq2]
      unfold mk01
      rfl
    have hsorted01 : SortedB lt01 (out.map g) := by
      have h1 : out.map g = runNetwork lt01 net31 (mk01 k1 k2) := by
        rw [← hout]
        unfold sort31
        rw [hcommute, hmk]
      rw [h1]
      exact net31_01_check k1 (Nat.lt_succ_of_le hk1) k2 (Nat.lt_succ_of_le hk2)
    rw [SortedB, List.chain'_iff_get] at hsorted01
    have hix : jj < (out.map g).length - 1 := by
      rw [List.length_map]
      exact hjlt
    have hpair := hsorted01 jj hix
    have hga : g a = 1 := (hg1 a).2 (hirr a)
    have hgb : g b = 0 := (hg0 b).2 hcomp
    have hgeta : (out.map g).get
        ⟨jj, by rw [List.length_map]; exact Nat.lt_of_lt_of_le hjlt (Nat.sub_le _ _)⟩ =
        g a := by
      rw [List.get_map]
    have hgetb : (out.map g).get
        ⟨jj + 1, by rw [List.length_map]; exact Nat.add_lt_of_lt_sub hjlt⟩ = g b := by
      rw [List.get_map]
    rw [hgeta, hgetb] at hpair
    rw [hga, hgb] at hpair
    simp [lt01] at hpair

/-! ### float_mem_cast

`float_mem_cast<Data_type, Cast_type>` (float_sort.h lines 54-65) `memcpy`s the object
representation of a float into a same-size integer.  A float object is modelled by its
object representation: the list of its `sizeof` bytes, least significant first; the
resulting integer is the number those bytes denote. -/

/-- Little-endian byte representation of a natural number in `w` bytes. -/
def bytesOfNat (w n : Nat) : List Nat := (List.range w).map (fun i => n / 256 ^ i % 256)

/-- The integer whose object representation is the given little-endian byte list. -/
def natOfBytes (bs : List Nat) : Nat := bs.foldr (fun b acc => b + 256 * acc) 0

/-- `float_mem_cast` (float_sort.h lines 54-65): `memcpy` of the argument's bytes into
an integer object of the same size; total on every byte pattern, NaN included. -/
def float_mem_cast (dataBytes : List Nat) : Nat := natOfBytes dataBytes

theorem bytesOfNat_natOfBytes {a b c d : Nat} (ha : a < 256) (hb : b < 256)
    (hc : c < 256) (hd : d < 256) :
    bytesOfNat 4 (natOfBytes [a, b, c, d]) = [a, b, c, d] := by
  have hn : natOfBytes [a, b, c, d] = a + 256 * (b + 256 * (c + 256 * d)) := by
    show a + 256 * (b + 256 * (c + 256 * (d + 256 * 0))) = _
    ring
  have hrange : List.range 4 = [0, 1, 2, 3] := rfl
  unfold bytesOfNat
  rw [hrange, hn]
  simp only [List.map_cons, List.map_nil]
  have e0 : (256:Nat) ^ 0 = 1 := by norm_num
  have e1 : (256:Nat) ^ 1 = 256 := by norm_num
  have e2 : (256:Nat) ^ 2 = 65536 := by norm_num
  have e3 : (256:Nat) ^ 3 = 16777216 := by norm_num
  rw [e0, e1, e2, e3]
  simp only [List.cons.injEq, and_true]
  refine ⟨?_, ?_, ?_, ?_⟩ <;> omega

/-! ### Claims -/

/-- Descending-by-key comparator: a strict weak ordering that is not consistent with
the ascending key order. -/
def compDesc : Nat → Nat → Bool := fun a b => decide (float_to_key b < float_to_key a)

/-- Ten floats, five `2.0f` then five `1.0f` (sorted for `compDesc`). -/
def cx_desc_input : List Nat :=
  List.replicate 5 0x40000000 ++ List.replicate 5 0x3F800000

/-- The range `+0.0f, -0.0f, 1.0f × 8`: sorted for the float ordering. -/
def cx_zero_input : List Nat := 0x00000000 :: 0x80000000 :: List.replicate 8 0x3F800000

/-- A small engine configuration (the exact constants are tunable, spec section 9). -/
def smallConfig : SpreadConfig := ⟨2, 8⟩

/-- C1, counterexample: `compDesc` satisfies the strict-weak-ordering laws, the input
reaches the engine path (it is not below the minimum sort size), and yet the
three-argument `float_sort` leaves an adjacent pair in comparator inversion, because
buckets are concatenated in ascending key order regardless of the comparator. -/
theorem float_sort_comparator_order_cx :
    (∀ a, compDesc a a = false) ∧
    (∀ a b c, compDesc a b = true → compDesc b c = true → compDesc a c = true) ∧
    (∀ a b c, compDesc a c = true → compDesc a b = true ∨ compDesc b c = true) ∧
    smallConfig.minSortSize ≤ cx_desc_input.length ∧
    ¬ SortedB compDesc (float_sort3 smallConfig floatRshift compDesc cx_desc_input) := by
  refine ⟨?_, ?_, ?_, by decide, by decide⟩
  · intro a
    simp [compDesc]
  · intro a b c h1 h2
    simp only [compDesc, decide_eq_true_eq] at h1 h2 ⊢
    omega
  · intro a b c h
    simp only [compDesc, decide_eq_true_eq] at h ⊢
    omega

/-- C1, amended: for every configuration, each of the three `float_sort` overloads
returns a permutation of its input; the output carries no adjacent inversion for the
ordering in use provided that ordering is consistent with the keys computed by the
right-shift functor (the section 4.2 contract) — which holds in particular for the
default float ordering and default key extraction of the one-argument overload. -/
theorem float_sort_sorted_perm_of_consistent :
    (∀ (cfg : SpreadConfig) (xs : List Nat),
      (∀ x ∈ xs, x < 2 ^ 32) →
      (float_sort1 cfg xs).Perm xs ∧ SortedB floatLtB (float_sort1 cfg xs)) ∧
    (∀ (α : Type) (cfg : SpreadConfig) (lt : α → α → Bool) (rshift : α → Nat → Nat)
      (xs : List α),
      (∀ x ∈ xs, ∀ y ∈ xs, lt x y = true → rshift x 0 < rshift y 0) →
      (∀ x ∈ xs, ∀ k : Nat, rshift x k = rshift x 0 >>> k) →
      (float_sort2 cfg lt rshift xs).Perm xs ∧
        SortedB lt (float_sort2 cfg lt rshift xs)) ∧
    (∀ (α : Type) (cfg : SpreadConfig) (rshift : α → Nat → Nat) (comp : α → α → Bool)
      (xs : List α),
      (∀ x ∈ xs, ∀ y ∈ xs, comp x y = true → rshift x 0 < rshift y 0) →
      (∀ x ∈ xs, ∀ k : Nat, rshift x k = rshift x 0 >>> k) →
      (float_sort3 cfg rshift comp xs).Perm xs ∧
        SortedB comp (float_sort3 cfg rshift comp xs)) := by
  refine ⟨?_, ?_, ?_⟩
  · intro cfg xs hb
    exact ⟨float_sort1_perm cfg xs, float_sort1_sorted cfg xs hb⟩
  · intro α cfg lt rshift xs hm hs
    exact ⟨float_sort2_perm cfg lt rshift xs, float_sort2_sorted cfg lt rshift xs hm hs⟩
  · intro α cfg rshift comp xs hm hs
    exact ⟨float_sort3_perm cfg rshift comp xs,
      float_sort3_sorted cfg rshift comp xs hm hs⟩

/-- Instance of the amended C1 statement on concrete ranges. -/
theorem float_sort_sorted_perm_of_consistent_witness :
    ((float_sort1 smallConfig [0x40400000, 0x3F800000, 0x40000000]).Perm
        [0x40400000, 0x3F800000, 0x40000000] ∧
      SortedB floatLtB (float_sort1 smallConfig [0x40400000, 0x3F800000, 0x40000000])) ∧
    ((float_sort3 smallConfig (fun x k => x >>> k) (fun a b => decide (a < b))
        [9, 4, 7]).Perm [9, 4, 7] ∧
      SortedB (fun a b => decide (a < b))
        (float_sort3 smallConfig (fun x k => x >>> k) (fun a b => decide (a < b))
          [9, 4, 7])) :=
  ⟨float_sort_sorted_perm_of_consistent.1 smallConfig _ (by decide),
   float_sort_sorted_perm_of_consistent.2.2 Nat smallConfig _ _ [9, 4, 7]
     (by decide) (fun x _ k => rfl)⟩

/-- C2, counterexample: reading the spec's transform literally (sign-set patterns keep
the sign bit and invert only the other bits), the float `-1.0` is below `1.0` yet its
key is not below the key of `1.0`, and the two zeros receive different keys under any
reading, since the transform is injective on bit patterns. -/
theorem float_key_spec_literal_cx :
    toVal 0xBF800000 < toVal 0x3F800000 ∧
    f32_isNaN 0xBF800000 = false ∧
    f32_isNaN 0x3F800000 = false ∧
    ¬ float_to_key_spec_literal 0xBF800000 < float_to_key_spec_literal 0x3F800000 ∧
    toVal (2 ^ 31) = toVal 0 ∧
    float_to_key_spec_literal (2 ^ 31) ≠ float_to_key_spec_literal 0 := by
  refine ⟨valLtB_iff.1 (by decide), by decide, by decide, by decide, ?_, by decide⟩
  norm_num [toVal, magN]

/-- C2, amended: with the sign bit inverted as well on sign-set patterns (forced by the
spec's own parentheticals), the key transform is strictly monotone in the represented
value on all 32-bit patterns; identical bit patterns receive identical keys; the keys
of `-0.0` and `+0.0` are adjacent (the transform is a bijection on patterns, so the two
zeros cannot share a key), with `key(-0.0) + 1 = key(+0.0)`. -/
theorem float_to_key_monotone_amended :
    (∀ a b : Nat, a < 2 ^ 32 → b < 2 ^ 32 → toVal a < toVal b →
      float_to_key a < float_to_key b) ∧
    (∀ a b : Nat, a = b → float_to_key a = float_to_key b) ∧
    float_to_key (2 ^ 31) + 1 = float_to_key 0 :=
  ⟨fun _ _ ha hb h => float_to_key_mono ha hb h, fun _ _ h => by rw [h], by decide⟩

/-- Instance of the amended C2 statement at `-1.0 < 1.0`. -/
theorem float_to_key_monotone_amended_witness :
    float_to_key 0xBF800000 < float_to_key 0x3F800000 :=
  float_to_key_monotone_amended.1 _ _ (by decide) (by decide) (valLtB_iff.1 (by decide))

/-- C3: below the minimum sort size every overload delegates directly to the fallback
comparison sort with identity projection — default ordering for the one- and
two-argument overloads, the supplied comparator for the three-argument overload — and
the output is the fallback's output on the same input. -/
theorem float_sort_small_delegates_pdqsort :
    (∀ (cfg : SpreadConfig) (xs : List Nat), xs.length < cfg.minSortSize →
      float_sort1 cfg xs = pdqsort floatLtB id xs) ∧
    (∀ (α : Type) (cfg : SpreadConfig) (lt : α → α → Bool) (rshift : α → Nat → Nat)
      (xs : List α), xs.length < cfg.minSortSize →
      float_sort2 cfg lt rshift xs = pdqsort lt id xs) ∧
    (∀ (α : Type) (cfg : SpreadConfig) (rshift : α → Nat → Nat) (comp : α → α → Bool)
      (xs : List α), xs.length < cfg.minSortSize →
      float_sort3 cfg rshift comp xs = pdqsort comp id xs) := by
  refine ⟨?_, ?_, ?_⟩
  · intro cfg xs h
    unfold float_sort1
    rw [if_pos h]
  · intro α cfg lt rshift xs h
    unfold float_sort2
    rw [if_pos h]
  · intro α cfg rshift comp xs h
    unfold float_sort3
    rw [if_pos h]

/-- Instance of C3 at a concrete small range. -/
theorem float_sort_small_delegates_pdqsort_witness :
    float_sort1 defaultConfig [0x40400000, 0x3F800000] =
      pdqsort floatLtB id [0x40400000, 0x3F800000] :=
  float_sort_small_delegates_pdqsort.1 defaultConfig _ (by decide)

/-- C4: with a positive bits-per-pass dividing the key bit width, the recursion depth
of the bucket distribution engine on any range of keys below `2 ^ bitwidth` is at most
`bitwidth / bitsPerPass`, so the whole sort terminates with bounded recursion. -/
theorem spread_depth_at_most_bitwidth_div_pass (cfg : SpreadConfig)
    (rshift : α → Nat → Nat) (seed : Nat) (xs : List α) (w : Nat)
    (hp : 0 < cfg.bitsPerPass) (hdvd : cfg.bitsPerPass ∣ w)
    (hseed : seed < 2 ^ w) (hkeys : ∀ x ∈ xs, rshift x 0 < 2 ^ w) :
    spread_sort_depth cfg rshift seed xs ≤ w / cfg.bitsPerPass :=
  spread_sort_depth_le cfg rshift seed xs w hp hdvd hseed hkeys

/-- Instance of C4 for 32-bit float keys at 8 bits per pass: depth at most 4. -/
theorem spread_depth_at_most_bitwidth_div_pass_witness :
    spread_sort_depth defaultConfig floatRshift (floatRshift 0x40400000 0)
      [0x40400000, 0x3F800000, 0x40000000] ≤ 32 / 8 :=
  spread_depth_at_most_bitwidth_div_pass defaultConfig floatRshift _ _ 32
    (by decide) (by decide) (by decide) (by decide)

/-- C5, counterexample: on a small range containing a NaN the overloads delegate to the
comparison sort, whose comparator is not a strict weak ordering in the presence of NaN;
the non-NaN values `5.0` and `1.0` end up mutually misordered (`5.0` precedes `1.0`
although `1.0 < 5.0`), refuting the claim that all non-NaN values stay pairwise
ordered. -/
theorem float_sort_nan_pairwise_cx :
    f32_isNaN 0x7FC00000 = true ∧
    f32_isNaN 0x40A00000 = false ∧
    f32_isNaN 0x3F800000 = false ∧
    toVal 0x3F800000 < toVal 0x40A00000 ∧
    float_sort1 defaultConfig [0x40A00000, 0x7FC00000, 0x3F800000] =
      [0x40A00000, 0x7FC00000, 0x3F800000] :=
  ⟨by decide, by decide, by decide, valLtB_iff.1 (by decide), by decide⟩

/-- C5, amended: on every input — NaN values included — each of the three overloads
terminates and leaves the range as some permutation of the input; the positions of NaN
values, and the mutual order of non-NaN values in comparison-sorted sub-ranges, are
unspecified. -/
theorem float_sort_nan_safe_perm :
    (∀ (cfg : SpreadConfig) (xs : List Nat), (float_sort1 cfg xs).Perm xs) ∧
    (∀ (α : Type) (cfg : SpreadConfig) (lt : α → α → Bool) (rshift : α → Nat → Nat)
      (xs : List α), (float_sort2 cfg lt rshift xs).Perm xs) ∧
    (∀ (α : Type) (cfg : SpreadConfig) (rshift : α → Nat → Nat) (comp : α → α → Bool)
      (xs : List α), (float_sort3 cfg rshift comp xs).Perm xs) :=
  ⟨fun cfg xs => float_sort1_perm cfg xs,
   fun _ cfg lt rshift xs => float_sort2_perm cfg lt rshift xs,
   fun _ cfg rshift comp xs => float_sort3_perm cfg rshift comp xs⟩

/-- Strict order on `Nat` as a boolean comparator (`std::less<>` on integers). -/
def natLtB : Nat → Nat → Bool := fun a b => decide (a < b)

/-- C6: the two-input sorter performs exactly the single compare-exchange `swap_if` on
positions 0 and 1 and sorts every 2-element range under any asymmetric comparator; the
31-input sorter runs its fixed compare-exchange schedule over the comparison-sorted
halves and sorts every 31-element range under any strict weak ordering, in both cases
producing a permutation of the input. -/
theorem sorting_network_sorters_sort :
    (∀ (α : Type) (comp : α → α → Bool) (l : List α), sort2 comp l = swap_if comp l 0 1) ∧
    (∀ (α : Type) (comp : α → α → Bool) (l : List α), l.length = 2 →
      (∀ p q, comp p q = true → comp q p = false) →
      (sort2 comp l).Perm l ∧ SortedB comp (sort2 comp l)) ∧
    (∀ (α : Type) (comp : α → α → Bool) (l : List α), l.length = 31 →
      (∀ a, comp a a = false) →
      (∀ a b c, comp a b = true → comp b c = true → comp a c = true) →
      (∀ a b c, comp a c = true → comp a b = true ∨ comp b c = true) →
      (sort31 comp l).Perm l ∧ SortedB comp (sort31 comp l)) := by
  refine ⟨fun α comp l => rfl, ?_, ?_⟩
  · intro α comp l hlen hasym
    exact ⟨sort2_perm comp l, sort2_sorted hlen hasym⟩
  · intro α comp l hlen hirr htr hnt
    exact ⟨sort31_perm comp l, sort31_sorted hlen hirr htr hnt⟩

/-- Instance of C6 on concrete integer ranges of sizes 2 and 31. -/
theorem sorting_network_sorters_sort_witness :
    ((sort2 natLtB [5, 3]).Perm [5, 3] ∧ SortedB natLtB (sort2 natLtB [5, 3])) ∧
    ((sort31 natLtB (List.range 31)).Perm (List.range 31) ∧
      SortedB natLtB (sort31 natLtB (List.range 31))) :=
  ⟨sorting_network_sorters_sort.2.1 Nat natLtB [5, 3] (by decide)
      (fun p q h => by
        simp only [natLtB, decide_eq_true_eq, decide_eq_false_iff_not] at h ⊢
        omega),
   sorting_network_sorters_sort.2.2 Nat natLtB (List.range 31) (by simp)
      (fun a => by simp [natLtB])
      (fun a b c h1 h2 => by simp only [natLtB, decide_eq_true_eq] at h1 h2 ⊢; omega)
      (fun a b c h => by simp only [natLtB, decide_eq_true_eq] at h ⊢; omega)⟩

/-- C7: on the engine path (range not below the minimum sort size) both functor-taking
overloads hand the engine the seed `rshift(*first, 0)`: the right-shift functor applied
to the first element of the range with offset 0. -/
theorem float_sort_seed_initial_rshift :
    (∀ (α : Type) (cfg : SpreadConfig) (lt : α → α → Bool) (rshift : α → Nat → Nat)
      (x : α) (xs : List α), ¬ (x :: xs).length < cfg.minSortSize →
      float_sort2 cfg lt rshift (x :: xs) =
        spread_sort cfg rshift lt (rshift x 0) (x :: xs)) ∧
    (∀ (α : Type) (cfg : SpreadConfig) (rshift : α → Nat → Nat) (comp : α → α → Bool)
      (x : α) (xs : List α), ¬ (x :: xs).length < cfg.minSortSize →
      float_sort3 cfg rshift comp (x :: xs) =
        spread_sort cfg rshift comp (rshift x 0) (x :: xs)) := by
  constructor
  · intro α cfg lt rshift x xs h
    unfold float_sort2
    rw [if_neg h]
  · intro α cfg rshift comp x xs h
    unfold float_sort3
    rw [if_neg h]

/-- Instance of C7 on a concrete three-element range. -/
theorem float_sort_seed_initial_rshift_witness :
    float_sort3 smallConfig (fun x k => x >>> k) natLtB [9, 4, 7] =
      spread_sort smallConfig (fun x k => x >>> k) natLtB (9 >>> 0) [9, 4, 7] :=
  float_sort_seed_initial_rshift.2 Nat smallConfig _ natLtB 9 [4, 7] (by decide)

/-- C8, counterexample: the range `+0.0, -0.0, 1.0 × 8` is sorted for the float
ordering — so it is a possible output of a first sort — yet the one-argument sort on
the engine path does not return it unchanged: the two zeros compare equivalent but have
distinct keys, and buckets are emitted in ascending key order. -/
theorem float_sort_not_idempotent_cx :
    SortedB floatLtB cx_zero_input ∧
    float_sort1 smallConfig cx_zero_input ≠ cx_zero_input :=
  ⟨by decide, by decide⟩

/-- Comparator-sorted ranges need not be fixed points, but key-sorted ranges are:
pairwise nondecreasing keys give an output with no adjacent inversion. -/
theorem sortedB_of_pairwise_keys (comp : α → α → Bool) (rshift : α → Nat → Nat)
    (xs : List α) (hp : List.Pairwise (fun a b => rshift a 0 ≤ rshift b 0) xs)
    (hm : ∀ x ∈ xs, ∀ y ∈ xs, comp x y = true → rshift x 0 < rshift y 0) :
    SortedB comp xs := by
  induction xs with
  | nil => exact List.chain'_nil
  | cons x rest ih =>
    match rest, hp, hm with
    | [], _, _ => exact List.chain'_singleton x
    | y :: ys, hp, hm =>
      refine List.chain'_cons.2 ⟨?_, ?_⟩
      · cases hc : comp y x with
        | false => rfl
        | true =>
          have hk := hm y (by simp) x (by simp) hc
          have hle : rshift x 0 ≤ rshift y 0 := (List.pairwise_cons.1 hp).1 y (by simp)
          exact absurd hle (Nat.not_le.2 hk)
      · exact ih (List.pairwise_cons.1 hp).2
          (fun a ha b hb h => hm a (List.mem_cons_of_mem x ha) b (List.mem_cons_of_mem x hb) h)

/-- C8, amended: a range whose keys are pairwise nondecreasing is returned unchanged by
every overload whose ordering is consistent with the keys; in particular the
one-argument float sort is a fixed point on key-sorted 32-bit patterns, and re-sorting
an output changes nothing once the keys of the output are nondecreasing. -/
theorem float_sort_id_of_key_sorted :
    (∀ (cfg : SpreadConfig) (xs : List Nat),
      List.Pairwise (fun a b => float_to_key a ≤ float_to_key b) xs →
      (∀ x ∈ xs, x < 2 ^ 32) →
      float_sort1 cfg xs = xs) ∧
    (∀ (α : Type) (cfg : SpreadConfig) (lt : α → α → Bool) (rshift : α → Nat → Nat)
      (xs : List α),
      List.Pairwise (fun a b => rshift a 0 ≤ rshift b 0) xs →
      (∀ x ∈ xs, ∀ y ∈ xs, lt x y = true → rshift x 0 < rshift y 0) →
      (∀ x ∈ xs, ∀ k : Nat, rshift x k = rshift x 0 >>> k) →
      float_sort2 cfg lt rshift xs = xs) ∧
    (∀ (α : Type) (cfg : SpreadConfig) (rshift : α → Nat → Nat) (comp : α → α → Bool)
      (xs : List α),
      List.Pairwise (fun a b => rshift a 0 ≤ rshift b 0) xs →
      (∀ x ∈ xs, ∀ y ∈ xs, comp x y = true → rshift x 0 < rshift y 0) →
      (∀ x ∈ xs, ∀ k : Nat, rshift x k = rshift x 0 >>> k) →
      float_sort3 cfg rshift comp xs = xs) := by
  refine ⟨?_, ?_, ?_⟩
  · intro cfg xs hp hb
    have hm : ∀ x ∈ xs, ∀ y ∈ xs, floatLtB x y = true → floatRshift x 0 < floatRshift y 0 := by
      intro x hx y hy hlt
      unfold floatRshift
      rw [Nat.shiftRight_zero, Nat.shiftRight_zero]
      exact floatLtB_key_mono (hb x hx) (hb y hy) hlt
    have hp' : List.Pairwise (fun a b => floatRshift a 0 ≤ floatRshift b 0) xs := by
      refine hp.imp ?_
      intro a b h
      unfold floatRshift
      rw [Nat.shiftRight_zero, Nat.shiftRight_zero]
      exact h
    unfold float_sort1
    split
    · rw [pdqsort_id]
      exact insertionSortB_eq_self (sortedB_of_pairwise_keys floatLtB floatRshift xs hp' hm)
    · match xs with
      | [] => rfl
      | x :: rest =>
        exact spread_sort_eq_self cfg floatRshift floatLtB _ _ hp' hm
          (fun x _ k => floatRshift_shift x k)
  · intro α cfg lt rshift xs hp hm hs
    unfold float_sort2
    split
    · rw [pdqsort_id]
      exact insertionSortB_eq_self (sortedB_of_pairwise_keys lt rshift xs hp hm)
    · match xs with
      | [] => rfl
      | x :: rest => exact spread_sort_eq_self cfg rshift lt _ _ hp hm hs
  · intro α cfg rshift comp xs hp hm hs
    unfold float_sort3
    split
    · rw [pdqsort_id]
      exact insertionSortB_eq_self (sortedB_of_pairwise_keys comp rshift xs hp hm)
    · match xs with
      | [] => rfl
      | x :: rest => exact spread_sort_eq_self cfg rshift comp _ _ hp hm hs

/-- Instance of the amended C8 statement on a key-sorted concrete range. -/
theorem float_sort_id_of_key_sorted_witness :
    float_sort1 smallConfig [0x3F800000, 0x40000000, 0x40400000] =
      [0x3F800000, 0x40000000, 0x40400000] :=
  float_sort_id_of_key_sorted.1 smallConfig _ (by decide) (by decide)

/-- C9: below the minimum sort size the functor-taking overloads never consult the
right-shift functor — the output is identical whichever functor is supplied — and the
empty range is handled by the fallback without touching `*first`, so it is safe
whenever the minimum sort size is at least one element. -/
theorem float_sort_small_ignores_rshift :
    (∀ (α : Type) (cfg : SpreadConfig) (lt : α → α → Bool)
      (r1 r2 : α → Nat → Nat) (xs : List α), xs.length < cfg.minSortSize →
      float_sort2 cfg lt r1 xs = float_sort2 cfg lt r2 xs) ∧
    (∀ (α : Type) (cfg : SpreadConfig) (comp : α → α → Bool)
      (r1 r2 : α → Nat → Nat) (xs : List α), xs.length < cfg.minSortSize →
      float_sort3 cfg r1 comp xs = float_sort3 cfg r2 comp xs) ∧
    (∀ (α : Type) (cfg : SpreadConfig) (lt : α → α → Bool) (r : α → Nat → Nat),
      1 ≤ cfg.minSortSize →
      float_sort2 cfg lt r ([] : List α) = []) := by
  refine ⟨?_, ?_, ?_⟩
  · intro α cfg lt r1 r2 xs h
    unfold float_sort2
    rw [if_pos h, if_pos h]
  · intro α cfg r1 r2 comp xs h
    unfold float_sort3
    rw [if_pos h, if_pos h]
  · intro α cfg lt r h
    unfold float_sort2
    rw [if_pos (by simpa using h)]
    rfl

/-- Instance of C9: the rshift functor is irrelevant on a small range, and the empty
range is safe. -/
theorem float_sort_small_ignores_rshift_witness :
    float_sort2 defaultConfig natLtB (fun x k => x >>> k) [3, 1, 2] =
      float_sort2 defaultConfig natLtB (fun _ _ => 0) [3, 1, 2] ∧
    float_sort2 defaultConfig natLtB (fun _ _ => 0) ([] : List Nat) = [] :=
  ⟨float_sort_small_ignores_rshift.1 Nat defaultConfig natLtB _ _ [3, 1, 2] (by decide),
   float_sort_small_ignores_rshift.2.2 Nat defaultConfig natLtB _ (by decide)⟩

/-- C10: `float_mem_cast` copies the object representation byte for byte into a
same-sized integer: the byte decomposition of the resulting 32-bit integer is exactly
the four input bytes, and two four-byte patterns map to the same integer exactly when
they are equal — the cast preserves the bit pattern and is injective on patterns, NaN
patterns included. -/
theorem float_mem_cast_preserves_bits (a b c d a' b' c' d' : Nat)
    (ha : a < 256) (hb : b < 256) (hc : c < 256) (hd : d < 256)
    (ha' : a' < 256) (hb' : b' < 256) (hc' : c' < 256) (hd' : d' < 256) :
    bytesOfNat 4 (float_mem_cast [a, b, c, d]) = [a, b, c, d] ∧
    (float_mem_cast [a, b, c, d] = float_mem_cast [a', b', c', d'] ↔
      ([a, b, c, d] : List Nat) = [a', b', c', d']) := by
  unfold float_mem_cast
  refine ⟨bytesOfNat_natOfBytes ha hb hc hd, ?_, ?_⟩
  · intro h
    have h1 := bytesOfNat_natOfBytes ha hb hc hd
    have h2 := bytesOfNat_natOfBytes ha' hb' hc' hd'
    rw [← h1, ← h2, h]
  · intro h
    rw [h]

/-- Instance of C10 at the byte patterns of `1.0f` and a quiet NaN. -/
theorem float_mem_cast_preserves_bits_witness :
    bytesOfNat 4 (float_mem_cast [0x00, 0x00, 0x80, 0x3F]) = [0x00, 0x00, 0x80, 0x3F] ∧
    (float_mem_cast [0x00, 0x00, 0x80, 0x3F] = float_mem_cast [0x00, 0x00, 0xC0, 0x7F] ↔
      ([0x00, 0x00, 0x80, 0x3F] : List Nat) = [0x00, 0x00, 0xC0, 0x7F]) :=
  float_mem_cast_preserves_bits 0x00 0x00 0x80 0x3F 0x00 0x00 0xC0 0x7F (by decide)
    (by decide) (by decide) (by decide) (by decide) (by decide) (by decide) (by decide)

end CppSort